import Mathlib

/-!
# Verification of the clox core against its specification

A shallow embedding of the clox bytecode interpreter (scanner, string
interning, open-addressed hash table, single-pass compiler emission, and the
VM dispatch loop), translated from the C sources, together with proofs and
refutations of the specification's claims about it.

Modelling conventions:
* C machine integers become `Nat`/`Int`; 32-bit overflow is explicit
  (`% 2 ^ 32`) where the C wraps (the FNV-1a hash).
* IEEE-754 doubles are modelled by exact rationals: no verified property
  depends on floating-point rounding.
* Dynamic arrays become lists whose length plays the role of the element
  count; the capacity/entries bookkeeping of growable arrays is invisible at
  this level except in the hash table, where capacity is semantically
  significant and is modelled as the bucket-list length.
* C pointers to heap objects become indices (allocation order) into an
  append-only heap list; pointer equality is index equality.
* Code whose C execution would be undefined or non-terminating (type-confused
  heap accesses, a full-table probe loop) is modelled with `Option`, `none`
  marking the undefined case.
-/

namespace Clox

/-- The numeric payload of a Lox number. The C implementation stores an
IEEE-754 double; no property verified here depends on rounding, so the payload
is modelled as an exact rational. -/
abbrev NumRep := Rat

/-- value.h: the tagged union `Value`. The `VAL_OBJ` payload is the object
pointer, modelled as the object's id in the VM heap. -/
inductive Value where
  | nil   : Value
  | bool  : Bool → Value
  | num   : NumRep → Value
  | obj   : Nat → Value
deriving DecidableEq, Repr

/-- value.c `valuesEqual`: different tags compare unequal; `VAL_OBJ` payloads
are compared as raw pointers (here: object ids). -/
def valuesEqual : Value → Value → Bool
  | .nil, .nil => true
  | .bool a, .bool b => a == b
  | .num a, .num b => a == b
  | .obj a, .obj b => a == b
  | _, _ => false

/-- vm.c `isFalsey`: nil and false are falsey, everything else is truthy. -/
def isFalsey : Value → Bool
  | .nil => true
  | .bool b => !b
  | _ => false

/-- object.c `hashString`: 32-bit FNV-1a over the byte content. -/
def hashString (chars : List Nat) : Nat :=
  chars.foldl (fun h c => ((h ^^^ (c % 256)) * 16777619) % 2 ^ 32) 2166136261

/-! ## Scanner (scanner.c, scanner.h = unnamed/part_001) -/

/-- scanner.h `TokenType`, in C declaration order. -/
inductive TokenType where
  | tLeftParen | tRightParen | tLeftBrace | tRightBrace
  | tComma | tDot | tMinus | tPlus
  | tSemicolon | tSlash | tStar
  | tBang | tBangEqual | tEqual | tEqualEqual
  | tGreater | tGreaterEqual | tLess | tLessEqual
  | tIdentifier | tString | tNumber
  | tAnd | tClass | tElse | tFalse | tFor | tFun | tIf | tNil | tOr
  | tPrint | tReturn | tSuper | tThis | tTrue | tVar | tWhile
  | tError | tEOF
deriving DecidableEq, Repr

/-- The integer value C assigns to each `TokenType` enumerator (position in
the declaration). -/
def TokenType.code : TokenType → Nat
  | .tLeftParen => 0 | .tRightParen => 1 | .tLeftBrace => 2 | .tRightBrace => 3
  | .tComma => 4 | .tDot => 5 | .tMinus => 6 | .tPlus => 7
  | .tSemicolon => 8 | .tSlash => 9 | .tStar => 10
  | .tBang => 11 | .tBangEqual => 12 | .tEqual => 13 | .tEqualEqual => 14
  | .tGreater => 15 | .tGreaterEqual => 16 | .tLess => 17 | .tLessEqual => 18
  | .tIdentifier => 19 | .tString => 20 | .tNumber => 21
  | .tAnd => 22 | .tClass => 23 | .tElse => 24 | .tFalse => 25
  | .tFor => 26 | .tFun => 27 | .tIf => 28 | .tNil => 29 | .tOr => 30
  | .tPrint => 31 | .tReturn => 32 | .tSuper => 33 | .tThis => 34
  | .tTrue => 35 | .tVar => 36 | .tWhile => 37
  | .tError => 38 | .tEOF => 39

/-- scanner.h `Token`: kind, lexeme (the `start`/`length` window into the
source), and 1-based line number. -/
structure Token where
  type   : TokenType
  lexeme : List Char
  line   : Nat
deriving DecidableEq, Repr

/-- scanner.c `Scanner`: `start` and `pos` are the `start` and `current`
indices into the source buffer; the C end-of-buffer test reads the NUL
terminator, modelled as `pos` reaching the buffer length. -/
structure Scanner where
  src   : List Char
  start : Nat
  pos   : Nat
  line  : Nat
deriving DecidableEq, Repr

/-- scanner.c `isAtEnd`. -/
def Scanner.isAtEnd (s : Scanner) : Bool := s.src.length ≤ s.pos

/-- scanner.c `peek` (reads the NUL terminator at the end of the buffer). -/
def Scanner.peek (s : Scanner) : Char := s.src.getD s.pos (Char.ofNat 0)

/-- scanner.c `makeToken`: lexeme is the `start ..< current` window. -/
def Scanner.makeToken (s : Scanner) (t : TokenType) : Token :=
  { type := t, lexeme := (s.src.drop s.start).take (s.pos - s.start), line := s.line }

/-- scanner.c `errorToken`: the lexeme is the message literal. -/
def Scanner.errorToken (s : Scanner) (message : List Char) : Token :=
  { type := .tError, lexeme := message, line := s.line }

/-- The scan loop of scanner.c `string`, fuel-structured on the remaining
buffer (each iteration advances `pos`). Note the condition `peek() != '\n'`
guarding the line increment, exactly as in the source. -/
def scanStringLoop : Nat → Scanner → Scanner
  | 0, s => s
  | fuel + 1, s =>
    if s.peek ≠ '"' ∧ ¬ s.isAtEnd then
      let s' := if s.peek ≠ '\n' then { s with line := s.line + 1 } else s
      scanStringLoop fuel { s' with pos := s'.pos + 1 }
    else s

/-- scanner.c `string`, entered after the opening quote has been consumed:
run the loop, report an unterminated string, or consume the closing quote and
build the token. -/
def scanString (s : Scanner) : Scanner × Token :=
  let s1 := scanStringLoop (s.src.length - s.pos) s
  if s1.isAtEnd then (s1, s1.errorToken "Unterminated string".toList)
  else
    let s2 := { s1 with pos := s1.pos + 1 }
    (s2, s2.makeToken .tString)

/-- Taken from the specification's wording, for comparison: the number of
newline characters embedded in a character window. -/
def specNewlineCount (l : List Char) : Nat := (l.filter (· = '\n')).length

/-! ## Compiler error reporting (compiler.c `errorAt`) -/

/-- The location suffix `errorAt` appends after `[Line N] Error`. -/
inductive ErrLoc where
  | atEnd    -- " at end"
  | silent   -- no location text
  | atLexeme -- " at '<lexeme>'"
deriving DecidableEq, Repr

/-- compiler.c `errorAt`, the location-choosing conditionals: the comparisons
are made against `token->line`, not `token->type`. -/
def errorAtLoc (tok : Token) : ErrLoc :=
  if tok.line = TokenType.code .tEOF then .atEnd
  else if tok.line = TokenType.code .tError then .silent
  else .atLexeme

/-! ## Hash table (table.h, table.c = unnamed/part_003) -/

/-- A pointer to a live `ObjString` together with the fields the table code
reads through it (`length` is `chars.length`). Pointer equality is `sid`
equality; `sid` is the object's position in the VM's allocation order. -/
structure StrRef where
  sid   : Nat
  chars : List Nat
  hash  : Nat
deriving DecidableEq, Repr

/-- table.h `Entry`. -/
structure Entry where
  key   : Option StrRef
  value : Value
deriving DecidableEq, Repr

/-- The all-empty bucket `adjustCapacity` initializes with. -/
def emptyEntry : Entry := { key := none, value := .nil }

/-- A truly empty bucket: no key and a nil value. -/
def Entry.isFree (e : Entry) : Bool := e.key == none && e.value == Value.nil

/-- table.h `Table`; the capacity is the bucket-list length. -/
structure Table where
  count   : Nat
  entries : List Entry
deriving DecidableEq, Repr

def Table.capacity (t : Table) : Nat := t.entries.length

/-- table.c `initTable`. -/
def initTable : Table := { count := 0, entries := [] }

/-- The bucket visited by the `j`-th step of a linear probe starting at
`start`. -/
def probePath (cap start j : Nat) : Nat := (start + j) % cap

/-- The entry at the `j`-th probe step. -/
def probeSlot (entries : List Entry) (cap start j : Nat) : Entry :=
  entries.getD (probePath cap start j) emptyEntry

/-- The loop of table.c `findEntry`, fuel-structured: the C loop does not
terminate on a table with no free slot and no matching key, modelled by
`none`. `tomb` remembers the first tombstone met, which is returned instead
of the terminating free bucket so that inserts reuse tombstones. -/
def findEntryAux (entries : List Entry) (cap : Nat) (key : StrRef) :
    Nat → Nat → Option Nat → Option Nat
  | 0, _, _ => none
  | fuel + 1, index, tomb =>
    let e := entries.getD index emptyEntry
    match e.key with
    | none =>
      if e.value = .nil then
        some (tomb.getD index)
      else
        findEntryAux entries cap key fuel ((index + 1) % cap) (some (tomb.getD index))
    | some k =>
      if k.sid = key.sid then some index
      else findEntryAux entries cap key fuel ((index + 1) % cap) tomb

/-- table.c `findEntry`: probe from `hash % capacity`, comparing keys as
pointers. -/
def findEntry (entries : List Entry) (cap : Nat) (key : StrRef) : Option Nat :=
  findEntryAux entries cap key cap (key.hash % cap) none

/-- table.c `tableGet`. `some none` models returning false, `some (some v)`
returning true through the out-parameter; the outer `none` marks the
non-terminating probe. -/
def tableGet (t : Table) (key : StrRef) : Option (Option Value) :=
  if t.count = 0 then some none
  else
    match findEntry t.entries t.capacity key with
    | none => none
    | some i =>
      match (t.entries.getD i emptyEntry).key with
      | none => some none
      | some _ => some (some (t.entries.getD i emptyEntry).value)

/-- memory.h `GROW_CAPACITY`. -/
def growCapacity (c : Nat) : Nat := if c < 8 then 8 else c * 2

/-- One step of the rehash loop in table.c `adjustCapacity`: skip keyless
buckets, reinsert keyed ones at the bucket `findEntry` picks in the new
array, bumping the recomputed count. -/
def rehashInto (cap : Nat) (acc : Option Table) (e : Entry) : Option Table :=
  match acc with
  | none => none
  | some tb =>
    match e.key with
    | none => some tb
    | some k =>
      match findEntry tb.entries cap k with
      | none => none
      | some i =>
        some { count := tb.count + 1,
               entries := tb.entries.set i { key := some k, value := e.value } }

/-- table.c `adjustCapacity`: rehash every keyed entry into a fresh bucket
array of the requested capacity, dropping tombstones and recomputing the
count. -/
def adjustCapacity (t : Table) (cap : Nat) : Option Table :=
  t.entries.foldl (rehashInto cap)
    (some { count := 0, entries := List.replicate cap emptyEntry })

/-- The growth step at the top of table.c `tableSet`. The C load-factor test
`count + 1 > capacity * TABLE_MAX_LOAD` is exact real arithmetic on
`0.75 = 3/4`, scaled here by 4. -/
def growIfNeeded (t : Table) : Option Table :=
  if 4 * (t.count + 1) > 3 * t.capacity then
    adjustCapacity t (growCapacity t.capacity)
  else
    some t

/-- table.c `tableSet`: grow if needed, probe, bump the count only when the
landing bucket is truly empty (a reused tombstone is already counted), write,
and report whether the key was absent. -/
def tableSet (t : Table) (key : StrRef) (value : Value) : Option (Table × Bool) := do
  let t ← growIfNeeded t
  let i ← findEntry t.entries t.capacity key
  let e := t.entries.getD i emptyEntry
  let isNewKey := e.key.isNone
  let count := if isNewKey && e.value == Value.nil then t.count + 1 else t.count
  some ({ count := count, entries := t.entries.set i { key := some key, value := value } },
        isNewKey)

/-- table.c `tableDelete`: place a tombstone (`Bool(true)` value) without
decrementing the count. -/
def tableDelete (t : Table) (key : StrRef) : Option (Table × Bool) :=
  if t.count = 0 then some (t, false)
  else
    match findEntry t.entries t.capacity key with
    | none => none
    | some i =>
      match (t.entries.getD i emptyEntry).key with
      | none => some (t, false)
      | some _ =>
        some ({ t with entries := t.entries.set i { key := none, value := .bool true } },
              true)

/-- The loop of table.c `tableFindString`: compare length, hash, then byte
content; stop at the first free non-tombstone bucket. -/
def tableFindStringAux (entries : List Entry) (cap : Nat) (chars : List Nat) (h : Nat) :
    Nat → Nat → Option (Option StrRef)
  | 0, _ => none
  | fuel + 1, index =>
    let e := entries.getD index emptyEntry
    match e.key with
    | none =>
      if e.value = .nil then some none
      else tableFindStringAux entries cap chars h fuel ((index + 1) % cap)
    | some k =>
      if k.chars.length = chars.length ∧ k.hash = h ∧ k.chars = chars then some (some k)
      else tableFindStringAux entries cap chars h fuel ((index + 1) % cap)

/-- table.c `tableFindString`, the interning probe. -/
def tableFindString (t : Table) (chars : List Nat) (h : Nat) : Option (Option StrRef) :=
  if t.count = 0 then some none
  else tableFindStringAux t.entries t.capacity chars h t.capacity (h % t.capacity)

/-! ## Bytecode chunks and the compiler's emitter (chunk.h, compiler.c) -/

/-- Modelled from the spec: the repository snapshot's chunk.h is an older
14-opcode version, while compiler.c, vm.c and debug.c use the closure-era
instruction set; the missing enum's members and their order are taken from
the spec's §4.5 ISA table together with the dispatch in debug.c, which lists
every opcode including OP_CLOSE_UPVALUE. -/
inductive OpCode where
  | opConstant | opNil | opTrue | opFalse | opPop
  | opGetLocal | opSetLocal | opGetGlobal | opDefineGlobal | opSetGlobal
  | opGetUpvalue | opSetUpvalue
  | opEqual | opGreater | opLess
  | opAdd | opSubtract | opMultiply | opDivide
  | opNot | opNegate | opPrint
  | opJump | opJumpIfFalse | opLoop | opCall | opClosure | opCloseUpvalue
  | opReturn
deriving DecidableEq, Repr

/-- The byte value of each opcode (enum declaration order). -/
def OpCode.code : OpCode → Nat
  | .opConstant => 0 | .opNil => 1 | .opTrue => 2 | .opFalse => 3 | .opPop => 4
  | .opGetLocal => 5 | .opSetLocal => 6 | .opGetGlobal => 7 | .opDefineGlobal => 8
  | .opSetGlobal => 9 | .opGetUpvalue => 10 | .opSetUpvalue => 11
  | .opEqual => 12 | .opGreater => 13 | .opLess => 14
  | .opAdd => 15 | .opSubtract => 16 | .opMultiply => 17 | .opDivide => 18
  | .opNot => 19 | .opNegate => 20 | .opPrint => 21
  | .opJump => 22 | .opJumpIfFalse => 23 | .opLoop => 24 | .opCall => 25
  | .opClosure => 26 | .opCloseUpvalue => 27 | .opReturn => 28

/-- chunk.h `Chunk`: parallel code/line arrays plus the constant pool; the
`entries` field is the shared length of the parallel arrays. -/
structure Chunk where
  code : List Nat
  lines : List Nat
  constants : List Value
deriving DecidableEq, Repr

def Chunk.entries (c : Chunk) : Nat := c.code.length

/-- chunk.c `writeChunk`. -/
def writeChunk (c : Chunk) (b : Nat) (line : Nat) : Chunk :=
  { c with code := c.code ++ [b], lines := c.lines ++ [line] }

/-- compiler.c `emitByte`; the `line` argument stands for
`parser.previous.line`. -/
def emitByte (c : Chunk) (b : Nat) (line : Nat) : Chunk := writeChunk c b line

/-- compiler.c `emitJump`: the opcode plus two `0xff` placeholder bytes;
returns the offset of the placeholder. -/
def emitJump (c : Chunk) (instr : Nat) (line : Nat) : Chunk × Nat :=
  let c1 := emitByte (emitByte (emitByte c instr line) 0xff line) 0xff line
  (c1, c1.entries - 2)

/-- compiler.c `patchJump`: write the big-endian 16-bit distance over the
placeholder (the overflow check reports an error but writes regardless). -/
def patchJump (c : Chunk) (offset : Nat) : Chunk :=
  let jump := c.entries - offset - 2
  { c with code := (c.code.set offset (jump / 256 % 256)).set (offset + 1) (jump % 256) }

/-- compiler.c `ifStatement`, with the recursive `expression()` and
`statement()` calls abstracted as chunk transformers (`cond`, `body`,
`elseBody`); the consumed punctuation tokens emit nothing. The two jump
offsets the C keeps in locals are returned alongside the chunk so that
properties can name them. -/
def ifStatement (cond body : Chunk → Chunk) (elseBody : Option (Chunk → Chunk))
    (line : Nat) (c : Chunk) : Chunk × Nat × Nat :=
  let c1 := cond c
  let r2 := emitJump c1 (OpCode.code .opJumpIfFalse) line
  let thenJump := r2.2
  let c3 := emitByte r2.1 (OpCode.code .opPop) line
  let c4 := body c3
  let r5 := emitJump c4 (OpCode.code .opJump) line
  let elseJump := r5.2
  let c6 := patchJump r5.1 thenJump
  let c7 := emitByte c6 (OpCode.code .opPop) line
  match elseBody with
  | some eb => (patchJump (eb c7) elseJump, thenJump, elseJump)
  | none => (c7, thenJump, elseJump)

/-- A chunk transformer that only appends code (the shape of every recursive
`expression()`/`statement()` call: the jumps it patches lie inside its own
emitted region). -/
def Emits (f : Chunk → Chunk) : Prop :=
  ∀ c : Chunk, ∃ t : List Nat, (f c).code = c.code ++ t

/-- compiler.c `Local`; depth −1 is the declared-but-uninitialized
sentinel. -/
structure CLocal where
  name : List Char
  depth : Int
  isCaptured : Bool
deriving DecidableEq, Repr

/-- The part of compiler.c's `Compiler` frame that `endScope` touches; the
locals list keeps the most recently declared local first (the top of the C
array). -/
structure CompilerFrame where
  locals : List CLocal
  scopeDepth : Int
  chunk : Chunk
deriving DecidableEq, Repr

/-- The pop loop of compiler.c `endScope`, run after the depth decrement:
emit OP_CLOSE_UPVALUE for a captured local and OP_POP otherwise, dropping the
local either way. -/
def endScopeLoop (d : Int) (line : Nat) : List CLocal → Chunk → List CLocal × Chunk
  | [], c => ([], c)
  | l :: rest, c =>
    if d < l.depth then
      let c' := emitByte c
        (OpCode.code (if l.isCaptured then .opCloseUpvalue else .opPop)) line
      endScopeLoop d line rest c'
    else (l :: rest, c)

/-- compiler.c `endScope`. -/
def endScope (line : Nat) (f : CompilerFrame) : CompilerFrame :=
  let d := f.scopeDepth - 1
  let r := endScopeLoop d line f.locals f.chunk
  { locals := r.1, scopeDepth := d, chunk := r.2 }

/-! ## VM data model (vm.h = unnamed/part_000, object.h, object.c, vm.c) -/

/-- object.h `ObjUpvalue`: `location` either points at a live value-stack
slot (`some` of its absolute index) or, once closed, at the upvalue's own
`closed` field (`none`); `next` is the open-upvalue threading link. -/
structure UpvalueObj where
  location : Option Nat
  closed   : Value
  next     : Option Nat
deriving DecidableEq, Repr

/-- object.h `ObjFunction`; `name` is a string object id or NULL. -/
structure FunctionObj where
  arity : Nat
  upvalueCount : Nat
  chunk : Chunk
  name : Option Nat
deriving DecidableEq, Repr

/-- object.h `ObjClosure`; the upvalue array's elements are NULL (`none`)
until OP_CLOSURE fills them. -/
structure ClosureObj where
  funId : Nat
  upvalues : List (Option Nat)
  upvalueCount : Nat
deriving DecidableEq, Repr

/-- The heap-object variants of object.h. A native wrapper carries only an
identifier: the single registered native (`clock`) returns a host-dependent
value that no verified property touches. -/
inductive HeapObj where
  | str (chars : List Nat)
  | func (f : FunctionObj)
  | native (nid : Nat)
  | closure (cl : ClosureObj)
  | upval (u : UpvalueObj)
deriving DecidableEq, Repr

/-- vm.h `CallFrame`: the executing closure, the instruction pointer as an
index into the closure's function's chunk, and the value-stack index of the
frame's slot zero. -/
structure CallFrame where
  closureOid : Nat
  ip : Nat
  slotsBase : Nat
deriving DecidableEq, Repr

/-- vm.h `FRAMES_MAX`. -/
def FRAMES_MAX : Nat := 64

/-- vm.h `VM`: the frame stack is kept innermost-first (the head is
`frames[frameCount - 1]`), the value stack bottom-first with `stackTop` as
its length. `objects` is the heap in allocation order (the C threads objects
into a linked list; identity is the allocation position). `output` records
what OP_PRINT wrote. -/
structure VMState where
  frames : List CallFrame
  stack : List Value
  globals : Table
  strings : Table
  openUpvalues : Option Nat
  objects : List HeapObj
  output : List Value
deriving DecidableEq, Repr

def VMState.push (st : VMState) (v : Value) : VMState :=
  { st with stack := st.stack ++ [v] }

/-- vm.c `pop`; `none` marks the underflow the C leaves undefined. -/
def VMState.popV (st : VMState) : Option (Value × VMState) :=
  match st.stack.getLast? with
  | none => none
  | some v => some (v, { st with stack := st.stack.dropLast })

/-- vm.c `peek`: `distance` slots below the stack top, without popping. -/
def VMState.peek (st : VMState) (d : Nat) : Option Value :=
  if d < st.stack.length then st.stack[st.stack.length - 1 - d]? else none

/-- Replace the instruction pointer of the innermost frame. -/
def VMState.withIp (st : VMState) (ip : Nat) : VMState :=
  match st.frames with
  | [] => st
  | f :: rest => { st with frames := { f with ip := ip } :: rest }

def asClosure? (st : VMState) (oid : Nat) : Option ClosureObj :=
  match st.objects[oid]? with
  | some (.closure cl) => some cl
  | _ => none

def asFunc? (st : VMState) (oid : Nat) : Option FunctionObj :=
  match st.objects[oid]? with
  | some (.func f) => some f
  | _ => none

def asUpval? (st : VMState) (oid : Nat) : Option UpvalueObj :=
  match st.objects[oid]? with
  | some (.upval u) => some u
  | _ => none

/-- The chunk a frame executes from (`frame->closure->function->chunk`). -/
def frameChunk? (st : VMState) (f : CallFrame) : Option Chunk := do
  let cl ← asClosure? st f.closureOid
  let fn ← asFunc? st cl.funId
  pure fn.chunk

/-- vm.c `READ_STRING()`: treat a constant as a string object and read it
through its pointer. The `hash` field caches `hashString` of the content,
exactly as `allocateString` stores it. -/
def readString? (st : VMState) (v : Value) : Option StrRef :=
  match v with
  | .obj oid =>
    match st.objects[oid]? with
    | some (.str chars) => some { sid := oid, chars := chars, hash := hashString chars }
    | _ => none
  | _ => none

/-- The runtime-error messages vm.c can raise, summarizing the formatted
text. -/
inductive ErrMsg where
  | operandsNumbers                    -- "Operands must be numbers."
  | operandNumber                      -- "Operand must be a number."
  | operandsNumbersOrStrings           -- "Operands must be two numbers or two strings."
  | undefinedVariable (name : List Nat)
  | expectedArguments (want got : Nat) -- "Expected %d arguments but got %d."
  | stackOverflow                      -- "Stack overflow."
  | notCallable                        -- "Can only call functions and classes."
deriving DecidableEq, Repr

/-- vm.c `runtimeError`: after printing the message and the stack trace,
`resetStack` clears the value and frame stacks. -/
def runtimeError (st : VMState) : VMState :=
  { st with stack := [], frames := [] }

/-- object.c `newUpvalue`: allocate a fresh upvalue pointing at the given
stack slot, with a nil `closed` field and a NULL `next` link. -/
def newUpvalue (st : VMState) (slot : Nat) : VMState × Nat :=
  ({ st with objects :=
      st.objects ++ [.upval { location := some slot, closed := .nil, next := none }] },
   st.objects.length)

/-- vm.c `captureUpvalue`: no walk of `vm.openUpvalues`, no reuse — it simply
allocates a fresh upvalue for the requested slot. -/
def captureUpvalue (st : VMState) (slot : Nat) : VMState × Nat :=
  newUpvalue st slot

/-- object.c `takeString` at the VM level: look the content up in
`vm.strings`; if interned, free the buffer and return the interned object,
otherwise allocate (`allocateString`) and intern the new object. -/
def vmTakeString (st : VMState) (chars : List Nat) : Option (VMState × Nat) :=
  let h := hashString chars
  match tableFindString st.strings chars h with
  | none => none
  | some (some k) => some (st, k.sid)
  | some none =>
    let oid := st.objects.length
    match tableSet st.strings { sid := oid, chars := chars, hash := h } .nil with
    | none => none
    | some (tbl, _) =>
      some ({ st with objects := st.objects ++ [.str chars], strings := tbl }, oid)

/-- vm.c `call`: arity check, frame-overflow check, then push a frame whose
ip is the start of the function's bytecode and whose slots base is
`stackTop − argCount − 1`. `Except.error` carries the runtime-error message
where the C returns false after `runtimeError`; the outer `Option` marks a
type-confused heap access the C leaves undefined. -/
def call (st : VMState) (closureOid argCount : Nat) : Option (Except ErrMsg VMState) := do
  let cl ← asClosure? st closureOid
  let f ← asFunc? st cl.funId
  pure <|
    if argCount ≠ f.arity then .error (.expectedArguments f.arity argCount)
    else if st.frames.length = FRAMES_MAX then .error .stackOverflow
    else .ok { st with frames :=
      { closureOid := closureOid, ip := 0,
        slotsBase := st.stack.length - argCount - 1 } :: st.frames }

/-- The return value of the `clock` native: environmental (host clock), fixed
arbitrarily since no verified property depends on it. -/
def clockNativeResult : Value := .num 0

/-- vm.c `callValue`: dispatch on the callee's object kind. -/
def callValue (st : VMState) (callee : Value) (argCount : Nat) :
    Option (Except ErrMsg VMState) :=
  match callee with
  | .obj oid =>
    match st.objects[oid]? with
    | some (.closure _) => call st oid argCount
    | some (.native _) =>
      some (.ok
        { st with
          stack := st.stack.take (st.stack.length - (argCount + 1)) ++ [clockNativeResult] })
    | _ => some (.error .notCallable)
  | _ => some (.error .notCallable)

/-- The OP_CLOSURE operand loop: read `count` (isLocal, index) byte pairs
from the enclosing chunk, capturing locals (fresh upvalues) or sharing the
enclosing closure's upvalues, and collect the resulting upvalue ids. -/
def readUpvaluePairs (ch : Chunk) (base : Nat) (frameCl : ClosureObj) :
    Nat → Nat → VMState → Option (VMState × List (Option Nat))
  | 0, _, st => some (st, [])
  | n + 1, pos, st =>
    match ch.code[pos]?, ch.code[pos + 1]? with
    | some isLocal, some idx =>
      if isLocal ≠ 0 then
        let r := captureUpvalue st (base + idx)
        match readUpvaluePairs ch base frameCl n (pos + 2) r.1 with
        | some (st', rest) => some (st', some r.2 :: rest)
        | none => none
      else
        match frameCl.upvalues[idx]? with
        | some uid =>
          match readUpvaluePairs ch base frameCl n (pos + 2) st with
          | some (st', rest) => some (st', uid :: rest)
          | none => none
        | none => none
    | _, _ => none

/-- vm.c `IS_STRING`/`AS_STRING` on a Value: the content when the value is a
string object. -/
def isStringValue (st : VMState) (v : Value) : Option (List Nat) :=
  match v with
  | .obj oid =>
    match st.objects[oid]? with
    | some (.str chars) => some chars
    | _ => none
  | _ => none

/-- The outcome of one iteration of the dispatch loop in vm.c `run`. -/
inductive StepOutcome where
  | ok (st : VMState)                        -- fall through to the next iteration
  | errRuntime (msg : ErrMsg) (st : VMState) -- return INTERPRET_RUNTIME_ERROR
  | okHalt (st : VMState)                    -- OP_RETURN with no caller: INTERPRET_OK
  | stuck                                    -- behavior the C leaves undefined
deriving DecidableEq, Repr

/-- One iteration of the dispatch loop in vm.c `run`: read the byte at the
instruction pointer and switch on it. A byte matching no case falls through
the switch — the C has no default — so the loop continues with the ip simply
advanced past the byte (the final else). -/
def runStep (st : VMState) : StepOutcome :=
  match st.frames with
  | [] => .stuck
  | frame :: _ =>
    match frameChunk? st frame with
    | none => .stuck
    | some ch =>
      match ch.code[frame.ip]? with
      | none => .stuck
      | some instr =>
        if instr = OpCode.code .opConstant then
          match ch.code[frame.ip + 1]? with
          | none => .stuck
          | some b =>
            match ch.constants[b]? with
            | none => .stuck
            | some v => .ok ((st.withIp (frame.ip + 2)).push v)
        else if instr = OpCode.code .opNil then
          .ok ((st.withIp (frame.ip + 1)).push .nil)
        else if instr = OpCode.code .opTrue then
          .ok ((st.withIp (frame.ip + 1)).push (.bool true))
        else if instr = OpCode.code .opFalse then
          .ok ((st.withIp (frame.ip + 1)).push (.bool false))
        else if instr = OpCode.code .opPop then
          match st.popV with
          | none => .stuck
          | some (_, st1) => .ok (st1.withIp (frame.ip + 1))
        else if instr = OpCode.code .opGetLocal then
          match ch.code[frame.ip + 1]? with
          | none => .stuck
          | some b =>
            match st.stack[frame.slotsBase + b]? with
            | none => .stuck
            | some v => .ok ((st.withIp (frame.ip + 2)).push v)
        else if instr = OpCode.code .opSetLocal then
          match ch.code[frame.ip + 1]? with
          | none => .stuck
          | some b =>
            match st.peek 0 with
            | none => .stuck
            | some v =>
              if frame.slotsBase + b < st.stack.length then
                .ok ({ st with stack := st.stack.set (frame.slotsBase + b) v }.withIp
                  (frame.ip + 2))
              else .stuck
        else if instr = OpCode.code .opGetGlobal then
          match ch.code[frame.ip + 1]? with
          | none => .stuck
          | some b =>
            match ch.constants[b]? with
            | none => .stuck
            | some cv =>
              match readString? st cv with
              | none => .stuck
              | some name =>
                match tableGet st.globals name with
                | none => .stuck
                | some none => .errRuntime (.undefinedVariable name.chars) (runtimeError st)
                | some (some v) => .ok ((st.withIp (frame.ip + 2)).push v)
        else if instr = OpCode.code .opDefineGlobal then
          match ch.code[frame.ip + 1]? with
          | none => .stuck
          | some b =>
            match ch.constants[b]? with
            | none => .stuck
            | some cv =>
              match readString? st cv with
              | none => .stuck
              | some name =>
                match st.peek 0 with
                | none => .stuck
                | some v =>
                  match tableSet st.globals name v with
                  | none => .stuck
                  | some (tbl, _) =>
                    .ok ({ st with globals := tbl, stack := st.stack.dropLast }.withIp
                      (frame.ip + 2))
        else if instr = OpCode.code .opSetGlobal then
          match ch.code[frame.ip + 1]? with
          | none => .stuck
          | some b =>
            match ch.constants[b]? with
            | none => .stuck
            | some cv =>
              match readString? st cv with
              | none => .stuck
              | some name =>
                match st.peek 0 with
                | none => .stuck
                | some v =>
                  match tableSet st.globals name v with
                  | none => .stuck
                  | some (tbl1, isNew) =>
                    if isNew then
                      match tableDelete tbl1 name with
                      | none => .stuck
                      | some (tbl2, _) =>
                        .errRuntime (.undefinedVariable name.chars)
                          (runtimeError { st with globals := tbl2 })
                    else
                      .ok ({ st with globals := tbl1 }.withIp (frame.ip + 2))
        else if instr = OpCode.code .opGetUpvalue then
          match ch.code[frame.ip + 1]? with
          | none => .stuck
          | some b =>
            match asClosure? st frame.closureOid with
            | none => .stuck
            | some cl =>
              match cl.upvalues[b]? with
              | some (some uid) =>
                match asUpval? st uid with
                | none => .stuck
                | some u =>
                  match u.location with
                  | some i =>
                    match st.stack[i]? with
                    | none => .stuck
                    | some v => .ok ((st.withIp (frame.ip + 2)).push v)
                  | none => .ok ((st.withIp (frame.ip + 2)).push u.closed)
              | _ => .stuck
        else if instr = OpCode.code .opSetUpvalue then
          match ch.code[frame.ip + 1]? with
          | none => .stuck
          | some b =>
            match st.peek 0 with
            | none => .stuck
            | some v =>
              match asClosure? st frame.closureOid with
              | none => .stuck
              | some cl =>
                match cl.upvalues[b]? with
                | some (some uid) =>
                  match asUpval? st uid with
                  | none => .stuck
                  | some u =>
                    match u.location with
                    | some i =>
                      if i < st.stack.length then
                        .ok ({ st with stack := st.stack.set i v }.withIp (frame.ip + 2))
                      else .stuck
                    | none =>
                      .ok (VMState.withIp
                        { st with
                          objects := st.objects.set uid (.upval { u with closed := v }) }
                        (frame.ip + 2))
                | _ => .stuck
        else if instr = OpCode.code .opEqual then
          match st.popV with
          | none => .stuck
          | some (rhs, st1) =>
            match st1.popV with
            | none => .stuck
            | some (lhs, st2) =>
              .ok ((st2.withIp (frame.ip + 1)).push (.bool (valuesEqual lhs rhs)))
        else if instr = OpCode.code .opGreater then
          match st.peek 0, st.peek 1 with
          | some (.num rhs), some (.num lhs) =>
            .ok ({ st with stack :=
              st.stack.dropLast.dropLast ++ [Value.bool (lhs > rhs)] }.withIp (frame.ip + 1))
          | some _, some _ => .errRuntime .operandsNumbers (runtimeError st)
          | _, _ => .stuck
        else if instr = OpCode.code .opLess then
          match st.peek 0, st.peek 1 with
          | some (.num rhs), some (.num lhs) =>
            .ok ({ st with stack :=
              st.stack.dropLast.dropLast ++ [Value.bool (lhs < rhs)] }.withIp (frame.ip + 1))
          | some _, some _ => .errRuntime .operandsNumbers (runtimeError st)
          | _, _ => .stuck
        else if instr = OpCode.code .opAdd then
          match st.peek 0, st.peek 1 with
          | some v0, some v1 =>
            match isStringValue st v0, isStringValue st v1 with
            | some b, some a =>
              match vmTakeString { st with stack := st.stack.dropLast.dropLast }
                  (a ++ b) with
              | none => .stuck
              | some (st1, oid) =>
                .ok ((st1.withIp (frame.ip + 1)).push (.obj oid))
            | _, _ =>
              match v0, v1 with
              | .num rhs, .num lhs =>
                .ok ({ st with stack :=
                  st.stack.dropLast.dropLast ++ [Value.num (lhs + rhs)] }.withIp (frame.ip + 1))
              | _, _ => .errRuntime .operandsNumbersOrStrings (runtimeError st)
          | _, _ => .stuck
        else if instr = OpCode.code .opSubtract then
          match st.peek 0, st.peek 1 with
          | some (.num rhs), some (.num lhs) =>
            .ok ({ st with stack :=
              st.stack.dropLast.dropLast ++ [Value.num (lhs - rhs)] }.withIp (frame.ip + 1))
          | some _, some _ => .errRuntime .operandsNumbers (runtimeError st)
          | _, _ => .stuck
        else if instr = OpCode.code .opMultiply then
          match st.peek 0, st.peek 1 with
          | some (.num rhs), some (.num lhs) =>
            .ok ({ st with stack :=
              st.stack.dropLast.dropLast ++ [Value.num (lhs * rhs)] }.withIp (frame.ip + 1))
          | some _, some _ => .errRuntime .operandsNumbers (runtimeError st)
          | _, _ => .stuck
        else if instr = OpCode.code .opDivide then
          match st.peek 0, st.peek 1 with
          | some (.num rhs), some (.num lhs) =>
            .ok ({ st with stack :=
              st.stack.dropLast.dropLast ++ [Value.num (lhs / rhs)] }.withIp (frame.ip + 1))
          | some _, some _ => .errRuntime .operandsNumbers (runtimeError st)
          | _, _ => .stuck
        else if instr = OpCode.code .opNot then
          match st.popV with
          | none => .stuck
          | some (v, st1) =>
            .ok ((st1.withIp (frame.ip + 1)).push (.bool (isFalsey v)))
        else if instr = OpCode.code .opNegate then
          match st.peek 0 with
          | some (.num x) =>
            .ok ({ st with stack := st.stack.dropLast ++ [Value.num (-x)] }.withIp (frame.ip + 1))
          | some _ => .errRuntime .operandNumber (runtimeError st)
          | none => .stuck
        else if instr = OpCode.code .opPrint then
          match st.popV with
          | none => .stuck
          | some (v, st1) =>
            .ok ({ st1 with output := st1.output ++ [v] }.withIp (frame.ip + 1))
        else if instr = OpCode.code .opJump then
          match ch.code[frame.ip + 1]?, ch.code[frame.ip + 2]? with
          | some b1, some b2 => .ok (st.withIp (frame.ip + 3 + (b1 * 256 + b2)))
          | _, _ => .stuck
        else if instr = OpCode.code .opJumpIfFalse then
          match ch.code[frame.ip + 1]?, ch.code[frame.ip + 2]?, st.peek 0 with
          | some b1, some b2, some v =>
            .ok (st.withIp (frame.ip + 3 + (if isFalsey v then b1 * 256 + b2 else 0)))
          | _, _, _ => .stuck
        else if instr = OpCode.code .opLoop then
          match ch.code[frame.ip + 1]?, ch.code[frame.ip + 2]? with
          | some b1, some b2 =>
            if b1 * 256 + b2 ≤ frame.ip + 3 then
              .ok (st.withIp (frame.ip + 3 - (b1 * 256 + b2)))
            else .stuck
          | _, _ => .stuck
        else if instr = OpCode.code .opCall then
          match ch.code[frame.ip + 1]? with
          | none => .stuck
          | some argc =>
            match st.peek argc with
            | none => .stuck
            | some callee =>
              let st2 := st.withIp (frame.ip + 2)
              match callValue st2 callee argc with
              | none => .stuck
              | some (.error m) => .errRuntime m (runtimeError st2)
              | some (.ok st3) => .ok st3
        else if instr = OpCode.code .opClosure then
          match ch.code[frame.ip + 1]? with
          | none => .stuck
          | some b =>
            match ch.constants[b]? with
            | some (.obj foid) =>
              match asFunc? st foid with
              | none => .stuck
              | some f =>
                match asClosure? st frame.closureOid with
                | none => .stuck
                | some frameCl =>
                  let oid := st.objects.length
                  let st2 := (VMState.push
                    { st with
                      objects := st.objects ++ [HeapObj.closure
                        { funId := foid, upvalues := List.replicate f.upvalueCount none,
                          upvalueCount := f.upvalueCount }] }
                    (.obj oid))
                  match readUpvaluePairs ch frame.slotsBase frameCl f.upvalueCount
                      (frame.ip + 2) st2 with
                  | none => .stuck
                  | some (st3, ups) =>
                    .ok (({ st3 with objects := st3.objects.set oid (.closure
                      { funId := foid, upvalues := ups,
                        upvalueCount := f.upvalueCount }) }).withIp
                      (frame.ip + 2 + 2 * f.upvalueCount))
            | _ => .stuck
        else if instr = OpCode.code .opReturn then
          match st.popV with
          | none => .stuck
          | some (result, st1) =>
            match st1.frames with
            | [] => .stuck
            | _ :: rest =>
              match rest with
              | [] =>
                match ({ st1 with frames := ([] : List CallFrame) }).popV with
                | none => .stuck
                | some (_, st2) => .okHalt st2
              | _ =>
                .ok
                  { st1 with
                    frames := rest,
                    stack := st1.stack.take frame.slotsBase ++ [result] }
        else
          .ok (st.withIp (frame.ip + 1))

/-- A small concrete machine for instantiating theorems: a script function
with the given chunk, wrapped in a closure (object id 1) that a single live
frame executes, with the closure itself in stack slot zero. -/
def sampleVM (code : List Nat) (constants : List Value) : VMState :=
  { frames := [{ closureOid := 1, ip := 0, slotsBase := 0 }],
    stack := [Value.obj 1],
    globals := initTable, strings := initTable, openUpvalues := none,
    objects := [
      HeapObj.func
        { arity := 0, upvalueCount := 0,
          chunk := { code := code, lines := [], constants := constants },
          name := none },
      HeapObj.closure { funId := 0, upvalues := [], upvalueCount := 0 }],
    output := [] }

/-- A keyed bucket of `t` holds exactly the pair `(k, v)`. -/
def HasEntry (t : Table) (k : StrRef) (v : Value) : Prop :=
  ∃ i, i < t.capacity ∧ t.entries.getD i emptyEntry = { key := some k, value := v }

/-- The well-formedness invariant every reachable table satisfies:
* `countEq`: the count is the number of non-free buckets (keys and
  tombstones);
* `loadOk`: the count stays below the capacity, except for the fresh empty
  table;
* `sidsDistinct`: two distinct buckets never hold keys with the same object
  id (keys are interned, compared as pointers);
* `probeOk`: every stored key is reached from its hash bucket by a probe
  path that crosses no truly-free bucket. -/
structure TableWF (t : Table) : Prop where
  countEq : t.count = (t.entries.filter (fun e => !e.isFree)).length
  loadOk : t.count < t.capacity ∨ t.capacity = 0
  sidsDistinct : ∀ i1, i1 < t.capacity → ∀ i2, i2 < t.capacity → ∀ k1 k2,
    (t.entries.getD i1 emptyEntry).key = some k1 →
    (t.entries.getD i2 emptyEntry).key = some k2 →
    i1 ≠ i2 → k1.sid ≠ k2.sid
  probeOk : ∀ i, i < t.capacity → ∀ k, (t.entries.getD i emptyEntry).key = some k →
    ∃ j, j < t.capacity ∧ i = probePath t.capacity (k.hash % t.capacity) j ∧
      ∀ j', j' < j →
        (probeSlot t.entries t.capacity (k.hash % t.capacity) j').isFree = false

/-- The string-interning state: the `vm.strings` table together with the
allocation heap (a new string object's id is its allocation position). -/
structure InternState where
  strings : Table
  objects : List HeapObj
deriving DecidableEq, Repr

/-- object.c `copyString`: hash the bytes, look them up in `vm.strings`; when
already interned return the existing handle (the copy is never made), else
allocate the copy and intern the new object (`allocateString`). -/
def copyString (st : InternState) (chars : List Nat) : Option (InternState × StrRef) :=
  let h := hashString chars
  match tableFindString st.strings chars h with
  | none => none
  | some (some interned) => some (st, interned)
  | some none =>
    let ref : StrRef := { sid := st.objects.length, chars := chars, hash := h }
    match tableSet st.strings ref .nil with
    | none => none
    | some (tbl, _) =>
      some ({ strings := tbl, objects := st.objects ++ [.str chars] }, ref)

/-- object.c `takeString`: the same lookup-or-allocate logic as `copyString`;
the C versions differ only in which buffer is freed or copied. -/
def takeString (st : InternState) (chars : List Nat) : Option (InternState × StrRef) :=
  let h := hashString chars
  match tableFindString st.strings chars h with
  | none => none
  | some (some interned) => some (st, interned)
  | some none =>
    let ref : StrRef := { sid := st.objects.length, chars := chars, hash := h }
    match tableSet st.strings ref .nil with
    | none => none
    | some (tbl, _) =>
      some ({ strings := tbl, objects := st.objects ++ [.str chars] }, ref)

/-- The invariant of the interning table: table well-formedness plus (a)
every stored key caches the FNV-1a hash of its own content, (b) no two
stored keys have equal content (canonicalization), and (c) every stored
key's id is an already-allocated object. -/
structure InternWF (st : InternState) : Prop where
  wf : TableWF st.strings
  hashOk : ∀ i, i < st.strings.capacity → ∀ k,
    (st.strings.entries.getD i emptyEntry).key = some k → k.hash = hashString k.chars
  contentUnique : ∀ i1, i1 < st.strings.capacity → ∀ i2, i2 < st.strings.capacity →
    ∀ k1 k2, (st.strings.entries.getD i1 emptyEntry).key = some k1 →
    (st.strings.entries.getD i2 emptyEntry).key = some k2 →
    i1 ≠ i2 → k1.chars ≠ k2.chars
  sidsBound : ∀ i, i < st.strings.capacity → ∀ k,
    (st.strings.entries.getD i emptyEntry).key = some k → k.sid < st.objects.length

/-- Keyed buckets at distinct positions hold keys with distinct object ids
(a list-level reading of `TableWF.sidsDistinct`). -/
def PairwiseSids (l : List Entry) : Prop :=
  ∀ p1 p2, p1 < l.length → p2 < l.length → p1 ≠ p2 → ∀ k1 k2,
    (l.getD p1 emptyEntry).key = some k1 → (l.getD p2 emptyEntry).key = some k2 →
    k1.sid ≠ k2.sid

/-- The invariant of the rehash loop in `adjustCapacity` after the prefix
`pre` of the old bucket array has been processed: the new table is well
formed at the target capacity, has no tombstones, counts exactly the keyed
entries seen so far, and its keyed buckets are exactly the keyed entries of
`pre`. -/
def RehashInv (cap : Nat) (pre : List Entry) (tb : Table) : Prop :=
  TableWF tb ∧ tb.capacity = cap
  ∧ (∀ i, i < cap → (tb.entries.getD i emptyEntry).key = none →
      (tb.entries.getD i emptyEntry).value = Value.nil)
  ∧ tb.count = (pre.filter (fun e => e.key.isSome)).length
  ∧ (∀ i, i < cap → (tb.entries.getD i emptyEntry).key.isSome = true →
      tb.entries.getD i emptyEntry ∈ pre)
  ∧ (∀ e ∈ pre, e.key.isSome = true → ∃ i, i < cap ∧ tb.entries.getD i emptyEntry = e)

/-- Capacities reachable through the table operations: zero before the first
growth, at least 8 afterwards. -/
def capOk8 (t : Table) : Prop := t.capacity = 0 ∨ 8 ≤ t.capacity

/-- The count never exceeds the capacity. -/
def countLe (t : Table) : Prop := t.count ≤ t.capacity

/-! ## Theorems: C9 (error location suffix) and C3 (string line counting) -/

/-- C9: the compiler's error reporter chooses its location suffix by comparing
the token's source line number, not its token type, against the `TokenType`
enum codes: a token whose line equals the numeric value of `TOKEN_EOF` (39) is
reported " at end", a token whose line equals the numeric value of
`TOKEN_ERROR` (38) gets no location text, and every other token — including
genuine EOF and error tokens on other lines — is reported " at <lexeme>";
the token's type never influences the choice. -/
theorem errorAt_classifies_by_line (tok : Token) :
    (errorAtLoc tok = .atEnd ↔ tok.line = TokenType.code .tEOF)
    ∧ (errorAtLoc tok = .silent ↔
        tok.line ≠ TokenType.code .tEOF ∧ tok.line = TokenType.code .tError)
    ∧ (errorAtLoc tok = .atLexeme ↔
        tok.line ≠ TokenType.code .tEOF ∧ tok.line ≠ TokenType.code .tError)
    ∧ (∀ ty : TokenType, errorAtLoc { tok with type := ty } = errorAtLoc tok)
    ∧ TokenType.code .tEOF = 39 ∧ TokenType.code .tError = 38
    ∧ errorAtLoc { type := .tEOF, lexeme := [], line := 1 } = .atLexeme
    ∧ errorAtLoc { type := .tError, lexeme := [], line := 5 } = .atLexeme := by
  refine ⟨?_, ?_, ?_, fun ty => rfl, rfl, rfl, rfl, rfl⟩ <;>
    · unfold errorAtLoc
      split
      · simp_all [TokenType.code]
      · split <;> simp_all [TokenType.code]

/-- Closed corollary of `errorAt_classifies_by_line` at concrete tokens
(exercising each branch). -/
theorem errorAt_classifies_by_line_witness :
    errorAtLoc { type := .tIdentifier, lexeme := ['x'], line := 39 } = .atEnd
    ∧ errorAtLoc { type := .tIdentifier, lexeme := ['x'], line := 38 } = .silent
    ∧ errorAtLoc { type := .tEOF, lexeme := [], line := 2 } = .atLexeme := by
  have h39 := errorAt_classifies_by_line { type := .tIdentifier, lexeme := ['x'], line := 39 }
  have h38 := errorAt_classifies_by_line { type := .tIdentifier, lexeme := ['x'], line := 38 }
  have h2 := errorAt_classifies_by_line { type := .tEOF, lexeme := [], line := 2 }
  refine ⟨h39.1.mpr (by decide), h38.2.1.mpr (by decide), h2.2.2.1.mpr (by decide)⟩

/-- C3 is false of the code: the scan loop of `string` increments the line
counter once for every character of the literal that is *not* a newline (the
guard in the source is `peek() != '\n'`, not `==`). Scanning the two-character
literal `"ab"` (which embeds no newline) moves the line counter from 1 to 3,
and scanning a literal consisting of one embedded newline leaves it at 1. -/
theorem scanString_counts_non_newlines :
    (((scanString { src := "\"ab\"".toList, start := 0, pos := 1, line := 1 }).1.line = 3)
      ∧ (scanString { src := "\"ab\"".toList, start := 0, pos := 1, line := 1 }).2.type
          = .tString
      ∧ specNewlineCount ['a', 'b'] = 0)
    ∧ (((scanString { src := ['"', '\n', '"'], start := 0, pos := 1, line := 1 }).1.line = 1)
      ∧ (scanString { src := ['"', '\n', '"'], start := 0, pos := 1, line := 1 }).2.type
          = .tString
      ∧ specNewlineCount ['\n'] = 1) := by
  decide

/-! ### Hash-table bookkeeping lemmas -/

theorem entriesGetD (l : List Entry) (i : Nat) :
    l.getD i emptyEntry = (l[i]?).getD emptyEntry := by
  simp [List.getD]

theorem foldl_rehash_none (cap : Nat) (l : List Entry) :
    List.foldl (rehashInto cap) none l = none := by
  induction l with
  | nil => rfl
  | cons e l ih => simpa [rehashInto] using ih

theorem foldl_rehash_len (cap : Nat) (l : List Entry) :
    ∀ tb t2, List.foldl (rehashInto cap) (some tb) l = some t2 →
      t2.entries.length = tb.entries.length ∧ t2.count ≤ tb.count + l.length := by
  induction l with
  | nil =>
    intro tb t2 h
    simp only [List.foldl_nil, Option.some.injEq] at h
    subst h
    exact ⟨rfl, by omega⟩
  | cons e l ih =>
    intro tb t2 h
    rw [List.foldl_cons] at h
    rcases hk : e.key with _ | k
    · rw [show rehashInto cap (some tb) e = some tb by simp [rehashInto, hk]] at h
      have := ih tb t2 h
      exact ⟨this.1, by have := this.2; simp [List.length_cons]; omega⟩
    · rcases hf : findEntry tb.entries cap k with _ | i
      · rw [show rehashInto cap (some tb) e = none by simp [rehashInto, hk, hf]] at h
        rw [foldl_rehash_none] at h
        exact absurd h (by simp)
      · rw [show rehashInto cap (some tb) e
            = some { count := tb.count + 1,
                     entries := tb.entries.set i { key := some k, value := e.value } } by
          simp [rehashInto, hk, hf]] at h
        have := ih _ t2 h
        refine ⟨by simpa using this.1, ?_⟩
        have h2 : t2.count ≤ tb.count + 1 + l.length := this.2
        simp only [List.length_cons]
        omega

theorem adjustCapacity_spec (t : Table) (cap : Nat) (t2 : Table)
    (h : adjustCapacity t cap = some t2) :
    t2.capacity = cap ∧ t2.count ≤ t.capacity := by
  have h2 := foldl_rehash_len cap t.entries _ _ h
  constructor
  · have := h2.1
    simpa [Table.capacity] using this
  · have := h2.2
    simpa [Table.capacity] using this

theorem growIfNeeded_spec (t t' : Table) (h : growIfNeeded t = some t') :
    t'.count + 1 ≤ t'.capacity ∧ 0 < t'.capacity ∧ (capOk8 t → 8 ≤ t'.capacity) := by
  unfold growIfNeeded at h
  split at h
  · rename_i hload
    have hs := adjustCapacity_spec t (growCapacity t.capacity) t' h
    have hcap : t'.capacity = growCapacity t.capacity := hs.1
    have hcnt : t'.count ≤ t.capacity := hs.2
    unfold growCapacity at hcap
    split at hcap <;> refine ⟨by omega, by omega, fun _ => by omega⟩
  · rename_i hload
    simp only [Option.some.injEq] at h
    subst h
    push_neg at hload
    refine ⟨by omega, by omega, ?_⟩
    rintro (h8 | h8) <;> omega

/-- C6: `tableSet(key, value)` writes the key and value into the bucket
`findEntry` lands on (in the possibly-grown bucket array), increments the
count exactly when that bucket was truly empty (key absent and value nil),
and returns true exactly when the bucket's key was absent — whether truly
empty or a tombstone. -/
theorem tableSet_writes_landing_slot (t : Table) (key : StrRef) (v : Value)
    (t' : Table) (i : Nat)
    (hg : growIfNeeded t = some t')
    (hf : findEntry t'.entries t'.capacity key = some i) :
    ∃ r, tableSet t key v = some r
      ∧ r.1.entries = t'.entries.set i { key := some key, value := v }
      ∧ r.1.count = (if (t'.entries.getD i emptyEntry).isFree then t'.count + 1 else t'.count)
      ∧ (r.2 = true ↔ (t'.entries.getD i emptyEntry).key = none) := by
  have hset : tableSet t key v = some
      ({ count := if (t'.entries.getD i emptyEntry).key.isNone
              && ((t'.entries.getD i emptyEntry).value == Value.nil)
            then t'.count + 1 else t'.count,
         entries := t'.entries.set i { key := some key, value := v } },
        (t'.entries.getD i emptyEntry).key.isNone) := by
    simp [tableSet, hg, hf]
  refine ⟨_, hset, rfl, ?_, ?_⟩
  · show (if ((t'.entries.getD i emptyEntry).key.isNone
          && ((t'.entries.getD i emptyEntry).value == Value.nil)) = true
        then t'.count + 1 else t'.count)
      = if (t'.entries.getD i emptyEntry).isFree then t'.count + 1 else t'.count
    generalize t'.entries.getD i emptyEntry = e
    rcases e with ⟨ek, ev⟩
    rcases ek with _ | k <;> by_cases hv : ev = Value.nil <;> simp [Entry.isFree, hv]
  · show ((t'.entries.getD i emptyEntry).key.isNone = true)
      ↔ (t'.entries.getD i emptyEntry).key = none
    exact Option.isNone_iff_eq_none

/-- Closed instance of `tableSet_writes_landing_slot`: the first insert into
the empty table grows it to capacity 8 and lands on bucket `hash % 8`. -/
theorem tableSet_writes_landing_slot_witness :
    ∃ r, tableSet initTable { sid := 0, chars := [], hash := 3 } (Value.bool true) = some r
      ∧ r.1.count = 1 ∧ r.2 = true := by
  obtain ⟨r, h1, h2, h3, h4⟩ :=
    tableSet_writes_landing_slot initTable { sid := 0, chars := [], hash := 3 }
      (Value.bool true) { count := 0, entries := List.replicate 8 emptyEntry } 3
      (by decide) (by decide)
  refine ⟨r, h1, ?_, h4.mpr (by decide)⟩
  rw [h3]
  decide

/-- C10: no hash-table operation computes a hash modulo a zero capacity:
`tableGet` and `tableDelete` return false immediately when the count is 0;
`tableSet` probes only the table produced by its growth step, whose capacity
is positive (at least 8 on every table whose capacity is 0 or ≥ 8, the shape
every reachable table has: witness the preservation clauses); and when the
count is nonzero the capacity is positive, so the guarded probes of
`tableGet`/`tableDelete` also run with positive capacity. -/
theorem probes_have_positive_capacity :
    (∀ (t : Table) (k : StrRef), t.count = 0 → tableGet t k = some none)
    ∧ (∀ (t : Table) (k : StrRef), t.count = 0 → tableDelete t k = some (t, false))
    ∧ (∀ (t t' : Table), growIfNeeded t = some t' → 0 < t'.capacity)
    ∧ (∀ (t t' : Table), capOk8 t → growIfNeeded t = some t' → 8 ≤ t'.capacity)
    ∧ (capOk8 initTable ∧ countLe initTable)
    ∧ (∀ (t : Table) (k : StrRef) (v : Value) (r : Table × Bool),
        capOk8 t → tableSet t k v = some r → capOk8 r.1 ∧ countLe r.1)
    ∧ (∀ (t : Table) (k : StrRef) (r : Table × Bool),
        capOk8 t → countLe t → tableDelete t k = some r → capOk8 r.1 ∧ countLe r.1)
    ∧ (∀ t : Table, countLe t → t.count ≠ 0 → 0 < t.capacity) := by
  refine ⟨fun t k h => by simp [tableGet, h],
          fun t k h => by simp [tableDelete, h],
          fun t t' h => (growIfNeeded_spec t t' h).2.1,
          fun t t' h8 h => (growIfNeeded_spec t t' h).2.2 h8,
          ⟨Or.inl rfl, Nat.le_refl 0⟩, ?_, ?_, fun t hle h0 => by
            unfold countLe at hle; omega⟩
  · intro t k v r h8 hset
    rcases hg : growIfNeeded t with _ | t'
    · have heq : tableSet t k v = none := by simp [tableSet, hg]
      rw [heq] at hset
      exact absurd hset (by simp)
    · rcases hf : findEntry t'.entries t'.capacity k with _ | i
      · have heq : tableSet t k v = none := by simp [tableSet, hg, hf]
        rw [heq] at hset
        exact absurd hset (by simp)
      · have heq : tableSet t k v = some
            ({ count := if ((t'.entries.getD i emptyEntry).key.isNone
                    && ((t'.entries.getD i emptyEntry).value == Value.nil)) = true
                  then t'.count + 1 else t'.count,
               entries := t'.entries.set i { key := some k, value := v } },
              (t'.entries.getD i emptyEntry).key.isNone) := by
          simp [tableSet, hg, hf]
        rw [heq] at hset
        simp only [Option.some.injEq] at hset
        have hspec := growIfNeeded_spec t t' hg
        have hcap : r.1.capacity = t'.capacity := by
          rw [← hset]
          simp [Table.capacity]
        have hcnt : r.1.count ≤ t'.count + 1 := by
          rw [← hset]
          dsimp only
          split <;> omega
        have h1 : t'.count + 1 ≤ t'.capacity := hspec.1
        constructor
        · right
          rw [hcap]
          exact hspec.2.2 h8
        · show r.1.count ≤ r.1.capacity
          rw [hcap]
          omega
  · intro t k r h8 hle hdel
    by_cases h0 : t.count = 0
    · have heq : tableDelete t k = some (t, false) := by simp [tableDelete, h0]
      rw [heq] at hdel
      simp only [Option.some.injEq] at hdel
      rw [← hdel]
      exact ⟨h8, hle⟩
    · rcases hf : findEntry t.entries t.capacity k with _ | i
      · have heq : tableDelete t k = none := by simp [tableDelete, h0, hf]
        rw [heq] at hdel
        exact absurd hdel (by simp)
      · rcases hk : (t.entries.getD i emptyEntry).key with _ | k0
        all_goals rw [entriesGetD] at hk
        · have heq : tableDelete t k = some (t, false) := by
            simp [tableDelete, h0, hf, hk]
          rw [heq] at hdel
          simp only [Option.some.injEq] at hdel
          rw [← hdel]
          exact ⟨h8, hle⟩
        · have heq : tableDelete t k = some
              ({ count := t.count,
                 entries := t.entries.set i { key := none, value := Value.bool true } },
                true) := by
            simp [tableDelete, h0, hf, hk]
          rw [heq] at hdel
          simp only [Option.some.injEq] at hdel
          have hcap : r.1.capacity = t.capacity := by
            rw [← hdel]
            simp [Table.capacity]
          have hcnt : r.1.count = t.count := by rw [← hdel]
          exact ⟨by unfold capOk8 at h8 ⊢; omega, by unfold countLe at hle ⊢; omega⟩

/-- Closed instance of `probes_have_positive_capacity`: the empty table and a
first insert into it. -/
theorem probes_have_positive_capacity_witness :
    tableGet initTable { sid := 0, chars := [], hash := 3 } = some none
    ∧ tableDelete initTable { sid := 0, chars := [], hash := 3 } = some (initTable, false)
    ∧ (∀ r, tableSet initTable { sid := 0, chars := [], hash := 3 } Value.nil = some r →
        capOk8 r.1 ∧ countLe r.1) :=
  ⟨probes_have_positive_capacity.1 initTable _ rfl,
   probes_have_positive_capacity.2.1 initTable _ rfl,
   fun r h => (probes_have_positive_capacity.2.2.2.2.2.1 initTable _ Value.nil r
      (Or.inl rfl) h)⟩

/-! ### Emitter lemmas and C7 -/

theorem getD_set_of_ne (l : List Nat) (i j x : Nat) (h : i ≠ j) :
    (l.set i x).getD j 0 = l.getD j 0 := by
  simp [List.getD, List.getElem?_set_ne h]

theorem emitByte_code (c : Chunk) (b line : Nat) :
    (emitByte c b line).code = c.code ++ [b] := rfl

theorem emitJump_code (c : Chunk) (instr line : Nat) :
    (emitJump c instr line).1.code = c.code ++ [instr, 0xff, 0xff] := by
  show ((c.code ++ [instr]) ++ [0xff]) ++ [0xff] = c.code ++ [instr, 0xff, 0xff]
  simp

theorem emitJump_offset (c : Chunk) (instr line : Nat) :
    (emitJump c instr line).2 = c.code.length + 1 := by
  simp [emitJump, emitByte, writeChunk, Chunk.entries]

theorem patchJump_code_length (c : Chunk) (o : Nat) :
    (patchJump c o).code.length = c.code.length := by
  simp [patchJump]

theorem patchJump_getD_outside (c : Chunk) (o q : Nat) (h : o + 2 ≤ q) :
    (patchJump c o).code.getD q 0 = c.code.getD q 0 := by
  show ((c.code.set o _).set (o + 1) _).getD q 0 = c.code.getD q 0
  rw [getD_set_of_ne _ _ _ _ (by omega), getD_set_of_ne _ _ _ _ (by omega)]

/-- C7: for every `if` statement with no `else` clause, the compiled chunk
still contains the unconditional OP_JUMP emitted after the then-branch, and
its two operand bytes remain the placeholder bytes 0xff 0xff, because
`patchJump` is never called on that offset (`ifStatement` patches only
`thenJump` when the `else` branch is absent). -/
theorem if_without_else_leaves_unpatched
    (cond body : Chunk → Chunk) (line : Nat) (c : Chunk)
    (hc : Emits cond) (hb : Emits body) :
    ((ifStatement cond body none line c).1.code.getD
        ((ifStatement cond body none line c).2.2 - 1) 0 = OpCode.code .opJump)
    ∧ ((ifStatement cond body none line c).1.code.getD
        ((ifStatement cond body none line c).2.2) 0 = 0xff)
    ∧ ((ifStatement cond body none line c).1.code.getD
        ((ifStatement cond body none line c).2.2 + 1) 0 = 0xff)
    ∧ (ifStatement cond body none line c).2.2 + 2
        ≤ (ifStatement cond body none line c).1.code.length := by
  have hif : ifStatement cond body none line c
      = (emitByte
          (patchJump
            (emitJump (body (emitByte (emitJump (cond c) (OpCode.code .opJumpIfFalse) line).1
                (OpCode.code .opPop) line))
              (OpCode.code .opJump) line).1
            (emitJump (cond c) (OpCode.code .opJumpIfFalse) line).2)
          (OpCode.code .opPop) line,
        (emitJump (cond c) (OpCode.code .opJumpIfFalse) line).2,
        (emitJump (body (emitByte (emitJump (cond c) (OpCode.code .opJumpIfFalse) line).1
            (OpCode.code .opPop) line))
          (OpCode.code .opJump) line).2) := rfl
  obtain ⟨t1, ht1⟩ := hc c
  obtain ⟨t2, ht2⟩ := hb (emitByte (emitJump (cond c) (OpCode.code .opJumpIfFalse) line).1
      (OpCode.code .opPop) line)
  rw [hif]
  dsimp only
  set c1 := cond c with hc1
  set c4 := body (emitByte (emitJump c1 (OpCode.code .opJumpIfFalse) line).1
      (OpCode.code .opPop) line) with hc4
  have hthen : (emitJump c1 (OpCode.code .opJumpIfFalse) line).2 = c1.code.length + 1 :=
    emitJump_offset _ _ _
  have helse : (emitJump c4 (OpCode.code .opJump) line).2 = c4.code.length + 1 :=
    emitJump_offset _ _ _
  have hlen4 : c4.code.length = c1.code.length + 4 + t2.length := by
    rw [hc4, ht2, emitByte_code, emitJump_code]
    simp
    omega
  have hcode5 : (emitJump c4 (OpCode.code .opJump) line).1.code
      = c4.code ++ [OpCode.code .opJump, 0xff, 0xff] := emitJump_code _ _ _
  -- the three interesting positions sit beyond the patched region
  have hread : ∀ k, k < 3 →
      (emitByte (patchJump (emitJump c4 (OpCode.code .opJump) line).1
          (emitJump c1 (OpCode.code .opJumpIfFalse) line).2) (OpCode.code .opPop) line).code.getD
        (c4.code.length + k) 0
      = [OpCode.code .opJump, 0xff, 0xff].getD k 0 := by
    intro k hk
    rw [emitByte_code]
    rw [List.getD_append _ _ _ _ (by rw [patchJump_code_length, hcode5]; simp; omega)]
    rw [patchJump_getD_outside _ _ _ (by rw [hthen]; omega)]
    rw [hcode5]
    rw [List.getD_append_right _ _ _ _ (by omega)]
    congr 1
    omega
  refine ⟨?_, ?_, ?_, ?_⟩
  · rw [helse]
    have := hread 0 (by omega)
    simpa using this
  · rw [helse]
    have := hread 1 (by omega)
    simpa [Nat.add_assoc] using this
  · rw [helse]
    have := hread 2 (by omega)
    simpa [Nat.add_assoc] using this
  · rw [helse, emitByte_code]
    rw [List.length_append, patchJump_code_length, hcode5]
    simp

/-- Closed instance of `if_without_else_leaves_unpatched`: compiling
`if (true) ...` with a one-byte condition and a one-byte then-branch leaves
the bytes `OP_JUMP 0xff 0xff` at offsets 5–7 of the chunk. -/
theorem if_without_else_leaves_unpatched_witness :
    (Emits (fun c => emitByte c (OpCode.code .opTrue) 1))
    ∧ ((ifStatement (fun c => emitByte c (OpCode.code .opTrue) 1)
          (fun c => emitByte c (OpCode.code .opNil) 1) none 1
          { code := [], lines := [], constants := [] }).1.code.getD
        ((ifStatement (fun c => emitByte c (OpCode.code .opTrue) 1)
          (fun c => emitByte c (OpCode.code .opNil) 1) none 1
          { code := [], lines := [], constants := [] }).2.2) 0 = 0xff) := by
  constructor
  · intro c
    exact ⟨[OpCode.code .opTrue], rfl⟩
  · exact (if_without_else_leaves_unpatched
      (fun c => emitByte c (OpCode.code .opTrue) 1)
      (fun c => emitByte c (OpCode.code .opNil) 1) 1
      { code := [], lines := [], constants := [] }
      (fun c => ⟨[OpCode.code .opTrue], rfl⟩)
      (fun c => ⟨[OpCode.code .opNil], rfl⟩)).2.1

/-! ### C1: upvalue capture does not thread or deduplicate -/

/-- C1 as stated is false of the code: at a concrete state with one live
stack slot, capturing slot 0 twice yields two distinct upvalue objects, and
the VM's open-upvalue list head is untouched (still null) — no sorted
threading occurred. -/
theorem captureUpvalue_counterexample :
    ((captureUpvalue ((captureUpvalue
        { frames := [], stack := [Value.nil], globals := initTable,
          strings := initTable, openUpvalues := none, objects := [],
          output := [] } 0).1) 0).2
      ≠ (captureUpvalue
        { frames := [], stack := [Value.nil], globals := initTable,
          strings := initTable, openUpvalues := none, objects := [],
          output := [] } 0).2)
    ∧ ((captureUpvalue ((captureUpvalue
        { frames := [], stack := [Value.nil], globals := initTable,
          strings := initTable, openUpvalues := none, objects := [],
          output := [] } 0).1) 0).1.openUpvalues = none) := by
  decide

/-- C1 amended: `captureUpvalue` performs no list walk and no deduplication —
it always allocates a fresh upvalue (`newUpvalue`) whose id is the previous
heap length and whose `next` link is null, and it neither consults nor
updates `vm.openUpvalues`; consequently two captures of the same live stack
slot return two distinct upvalue objects. -/
theorem captureUpvalue_always_fresh (st : VMState) (slot : Nat) :
    (captureUpvalue st slot).2 = st.objects.length
    ∧ (captureUpvalue st slot).1.openUpvalues = st.openUpvalues
    ∧ (captureUpvalue st slot).1.objects
        = st.objects ++ [.upval { location := some slot, closed := .nil, next := none }]
    ∧ (captureUpvalue (captureUpvalue st slot).1 slot).2 ≠ (captureUpvalue st slot).2 := by
  refine ⟨rfl, rfl, rfl, ?_⟩
  show (st.objects ++ [HeapObj.upval
      { location := some slot, closed := .nil, next := none }]).length ≠ st.objects.length
  simp

/-! ### C8: the calling convention's checks -/

/-- C8: `call(closure, argCount)` raises "Expected %d arguments but got %d."
whenever argCount differs from the closure's function's arity; raises "Stack
overflow." whenever the frame count already equals FRAMES_MAX = 64 (the arity
check runs first, so this is observed when the arity matches); in both error
cases no frame is pushed — the error result carries no new state at all; and
otherwise it pushes a frame whose ip is 0, the start of the function's
bytecode, and whose slots base is stackTop − argCount − 1. -/
theorem call_spec (st : VMState) (oid argCount : Nat) (cl : ClosureObj) (f : FunctionObj)
    (hcl : asClosure? st oid = some cl) (hf : asFunc? st cl.funId = some f) :
    FRAMES_MAX = 64
    ∧ (argCount ≠ f.arity →
        call st oid argCount = some (.error (.expectedArguments f.arity argCount)))
    ∧ (argCount = f.arity → st.frames.length = FRAMES_MAX →
        call st oid argCount = some (.error .stackOverflow))
    ∧ (argCount = f.arity → st.frames.length ≠ FRAMES_MAX →
        call st oid argCount = some (.ok
          { st with frames :=
              { closureOid := oid, ip := 0, slotsBase := st.stack.length - argCount - 1 }
                :: st.frames })) := by
  refine ⟨rfl, ?_, ?_, ?_⟩
  · intro hne
    simp [call, hcl, hf, hne]
  · intro he hmax
    simp [call, hcl, hf, he, hmax]
  · intro he hmax
    simp [call, hcl, hf, he, hmax]

/-- Closed instance of `call_spec`: calling a zero-arity closure with zero
arguments on a one-value stack pushes the frame `(ip 0, slots base 0)`. -/
theorem call_spec_witness :
    call (sampleVM [] []) 1 0 = some (.ok
      { sampleVM [] [] with frames :=
          { closureOid := 1, ip := 0, slotsBase := (sampleVM [] []).stack.length - 0 - 1 }
            :: (sampleVM [] []).frames }) := by
  exact (call_spec (sampleVM [] []) 1 0
    { funId := 0, upvalues := [], upvalueCount := 0 }
    { arity := 0, upvalueCount := 0,
      chunk := { code := [], lines := [], constants := [] }, name := none }
    (by decide) (by decide)).2.2.2 rfl (by decide)

/-! ### C2: OP_CLOSE_UPVALUE is emitted but not executed -/

theorem endScopeLoop_appends (d : Int) (line : Nat) :
    ∀ (ls : List CLocal) (c : Chunk),
      ∃ t, (endScopeLoop d line ls c).2.code = c.code ++ t := by
  intro ls
  induction ls with
  | nil => intro c; exact ⟨[], by simp [endScopeLoop]⟩
  | cons l rest ih =>
    intro c
    by_cases hd : d < l.depth
    · obtain ⟨t, ht⟩ := ih (emitByte c
        (OpCode.code (if l.isCaptured then .opCloseUpvalue else .opPop)) line)
      refine ⟨(OpCode.code (if l.isCaptured then .opCloseUpvalue else .opPop)) :: t, ?_⟩
      rw [show endScopeLoop d line (l :: rest) c
          = endScopeLoop d line rest (emitByte c
              (OpCode.code (if l.isCaptured then .opCloseUpvalue else .opPop)) line) by
        simp [endScopeLoop, hd]]
      rw [ht, emitByte_code, List.append_assoc]
      rfl
    · exact ⟨[], by simp [endScopeLoop, hd]⟩

/-- C2: when `endScope` pops a local whose isCaptured flag is set, the
compiler emits the OP_CLOSE_UPVALUE byte (and OP_POP for an uncaptured one);
the VM's `run` dispatch switch has no case for that opcode (and no default),
so executing that byte changes no VM state beyond stepping the instruction
pointer past it: the value stack, frames, globals, heap, open-upvalue list
and output are all unchanged — the local's slot is not popped and no upvalue
is closed. -/
theorem close_upvalue_emitted_but_ignored
    (line : Nat) (l : CLocal) (rest : List CLocal) (d : Int) (c : Chunk)
    (hdepth : d - 1 < l.depth)
    (st : VMState) (frame : CallFrame) (tail : List CallFrame) (ch : Chunk)
    (hfr : st.frames = frame :: tail)
    (hch : frameChunk? st frame = some ch)
    (hinstr : ch.code[frame.ip]? = some (OpCode.code .opCloseUpvalue)) :
    (l.isCaptured = true →
      (endScope line { locals := l :: rest, scopeDepth := d, chunk := c }).chunk.code.getD
        c.code.length 0 = OpCode.code .opCloseUpvalue)
    ∧ (l.isCaptured = false →
      (endScope line { locals := l :: rest, scopeDepth := d, chunk := c }).chunk.code.getD
        c.code.length 0 = OpCode.code .opPop)
    ∧ runStep st = .ok (st.withIp (frame.ip + 1))
    ∧ (st.withIp (frame.ip + 1)).stack = st.stack
    ∧ (st.withIp (frame.ip + 1)).objects = st.objects
    ∧ (st.withIp (frame.ip + 1)).globals = st.globals
    ∧ (st.withIp (frame.ip + 1)).openUpvalues = st.openUpvalues
    ∧ (st.withIp (frame.ip + 1)).output = st.output
    ∧ (st.withIp (frame.ip + 1)).frames = { frame with ip := frame.ip + 1 } :: tail := by
  have hemit : ∀ cap : Bool, l.isCaptured = cap →
      (endScope line { locals := l :: rest, scopeDepth := d, chunk := c }).chunk.code.getD
        c.code.length 0
      = OpCode.code (if cap then .opCloseUpvalue else .opPop) := by
    intro cap hcap
    show (endScopeLoop (d - 1) line (l :: rest) c).2.code.getD c.code.length 0 = _
    rw [show endScopeLoop (d - 1) line (l :: rest) c
        = endScopeLoop (d - 1) line rest (emitByte c
            (OpCode.code (if l.isCaptured then .opCloseUpvalue else .opPop)) line) by
      simp [endScopeLoop, hdepth]]
    obtain ⟨t, ht⟩ := endScopeLoop_appends (d - 1) line rest (emitByte c
      (OpCode.code (if l.isCaptured then .opCloseUpvalue else .opPop)) line)
    rw [ht, emitByte_code, hcap, List.append_assoc]
    rw [List.getD_append_right _ _ _ _ (Nat.le_refl _)]
    simp
  refine ⟨fun hcap => by simpa using hemit true hcap,
          fun hcap => by simpa using hemit false hcap, ?_, ?_, ?_, ?_, ?_, ?_, ?_⟩
  · simp only [runStep, hfr, hch, hinstr]
    norm_num [OpCode.code]
  all_goals simp [VMState.withIp, hfr]

/-- Closed instance of `close_upvalue_emitted_but_ignored`: a captured local
at depth 1 makes `endScope` emit byte 27 (OP_CLOSE_UPVALUE), and a machine
about to execute byte 27 steps to ip 1 with nothing else changed. -/
theorem close_upvalue_emitted_but_ignored_witness :
    ((endScope 1
        { locals := [{ name := [], depth := 1, isCaptured := true }],
          scopeDepth := 1,
          chunk := { code := [], lines := [], constants := [] } }).chunk.code.getD 0 0
      = OpCode.code .opCloseUpvalue)
    ∧ runStep (sampleVM [OpCode.code .opCloseUpvalue] [])
      = .ok ((sampleVM [OpCode.code .opCloseUpvalue] []).withIp 1) := by
  have h := close_upvalue_emitted_but_ignored 1
    { name := [], depth := 1, isCaptured := true } [] 1
    { code := [], lines := [], constants := [] }
    (by decide)
    (sampleVM [OpCode.code .opCloseUpvalue] [])
    { closureOid := 1, ip := 0, slotsBase := 0 } []
    { code := [OpCode.code .opCloseUpvalue], lines := [], constants := [] }
    rfl (by decide) (by decide)
  exact ⟨h.1 rfl, h.2.2.1⟩

/-! ### Probe-path lemmas for the open-addressed table -/

theorem probePath_lt (cap start j : Nat) (hcap : 0 < cap) : probePath cap start j < cap :=
  Nat.mod_lt _ hcap

theorem probePath_succ (cap start j : Nat) :
    (probePath cap start j + 1) % cap = probePath cap start (j + 1) := by
  unfold probePath
  rw [Nat.mod_add_mod, Nat.add_assoc]

theorem probePath_zero (cap start : Nat) (h : start < cap) : probePath cap start 0 = start := by
  unfold probePath
  simpa using Nat.mod_eq_of_lt h

theorem exists_probe_offset (cap start m : Nat) (hm : m < cap) :
    ∃ j, j < cap ∧ probePath cap start j = m := by
  have hcap : 0 < cap := Nat.lt_of_le_of_lt (Nat.zero_le m) hm
  refine ⟨(cap + m - start % cap) % cap, Nat.mod_lt _ hcap, ?_⟩
  unfold probePath
  rw [Nat.add_mod_mod]
  have hdm := Nat.div_add_mod start cap
  have hs : start % cap < cap := Nat.mod_lt _ hcap
  have hdist : cap * (start / cap + 1) = cap * (start / cap) + cap := by ring
  have h1 : start + (cap + m - start % cap) = cap * (start / cap + 1) + m := by omega
  rw [h1, Nat.mul_add_mod]
  exact Nat.mod_eq_of_lt hm

theorem isFree_of_key_some (e : Entry) (k : StrRef) (hk : e.key = some k) :
    e.isFree = false := by
  simp [Entry.isFree, hk]

theorem isFree_of_tombstone (e : Entry) (hk : e.key = none) (hv : e.value ≠ Value.nil) :
    e.isFree = false := by
  simp [Entry.isFree, hk, hv]

theorem isFree_of_free (e : Entry) (hk : e.key = none) (hv : e.value = Value.nil) :
    e.isFree = true := by
  simp [Entry.isFree, hk, hv]

theorem isFree_shape (e : Entry) (h : e.isFree = true) :
    e.key = none ∧ e.value = Value.nil := by
  rcases e with ⟨ek, ev⟩
  rcases ek with _ | k <;> simp_all [Entry.isFree]

/-- Unfolding `findEntryAux` one step when the probed bucket's key is
absent. -/
theorem findEntryAux_step_none (entries : List Entry) (cap : Nat) (key : StrRef)
    (fuel idx : Nat) (tomb : Option Nat)
    (hk : (entries.getD idx emptyEntry).key = none) :
    findEntryAux entries cap key (fuel + 1) idx tomb
      = if (entries.getD idx emptyEntry).value = Value.nil then some (tomb.getD idx)
        else findEntryAux entries cap key fuel ((idx + 1) % cap) (some (tomb.getD idx)) := by
  rw [findEntryAux]
  rw [hk]

/-- Unfolding `findEntryAux` one step when the probed bucket holds a key. -/
theorem findEntryAux_step_some (entries : List Entry) (cap : Nat) (key : StrRef)
    (fuel idx : Nat) (tomb : Option Nat) (k : StrRef)
    (hk : (entries.getD idx emptyEntry).key = some k) :
    findEntryAux entries cap key (fuel + 1) idx tomb
      = if k.sid = key.sid then some idx
        else findEntryAux entries cap key fuel ((idx + 1) % cap) tomb := by
  rw [findEntryAux]
  rw [hk]

/-- The bucket `findEntry` lands on either has no key or holds the probed
key (pointer match). -/
theorem findEntryAux_landing (entries : List Entry) (cap : Nat) (key : StrRef) :
    ∀ (fuel idx : Nat) (tomb : Option Nat) (L : Nat),
      (∀ tL, tomb = some tL → (entries.getD tL emptyEntry).key = none) →
      findEntryAux entries cap key fuel idx tomb = some L →
      (entries.getD L emptyEntry).key = none
      ∨ ∃ k, (entries.getD L emptyEntry).key = some k ∧ k.sid = key.sid := by
  intro fuel
  induction fuel with
  | zero =>
    intro idx tomb L _ h
    exact absurd h (by simp [findEntryAux])
  | succ fuel ih =>
    intro idx tomb L htomb h
    rcases hk : (entries.getD idx emptyEntry).key with _ | k
    · rw [findEntryAux_step_none entries cap key fuel idx tomb hk] at h
      by_cases hv : (entries.getD idx emptyEntry).value = Value.nil
      · rw [if_pos hv] at h
        injection h with h
        subst h
        rcases tomb with _ | tL
        · simp only [Option.getD_none]
          exact Or.inl hk
        · simp only [Option.getD_some]
          exact Or.inl (htomb tL rfl)
      · rw [if_neg hv] at h
        refine ih _ _ _ ?_ h
        intro tL htl
        injection htl with htl
        subst htl
        rcases tomb with _ | tL0
        · simpa using hk
        · simpa using htomb tL0 rfl
    · rw [findEntryAux_step_some entries cap key fuel idx tomb k hk] at h
      by_cases hs : k.sid = key.sid
      · rw [if_pos hs] at h
        injection h with h
        subst h
        exact Or.inr ⟨k, hk, hs⟩
      · rw [if_neg hs] at h
        exact ih _ _ _ htomb h

/-- The bucket `findEntry` lands on lies on the probe path, beyond no truly
free bucket. -/
theorem findEntryAux_path (entries : List Entry) (cap : Nat) (key : StrRef) (start : Nat) :
    ∀ (fuel j0 : Nat) (tomb : Option Nat) (L : Nat),
      (∀ j', j' < j0 → (probeSlot entries cap start j').isFree = false) →
      (∀ tL, tomb = some tL → ∃ jt, jt < j0 ∧ tL = probePath cap start jt) →
      findEntryAux entries cap key fuel (probePath cap start j0) tomb = some L →
      ∃ j, j < j0 + fuel ∧ L = probePath cap start j ∧
        ∀ j', j' < j → (probeSlot entries cap start j').isFree = false := by
  intro fuel
  induction fuel with
  | zero =>
    intro j0 tomb L _ _ h
    exact absurd h (by simp [findEntryAux])
  | succ fuel ih =>
    intro j0 tomb L hpre htomb h
    rcases hk : (entries.getD (probePath cap start j0) emptyEntry).key with _ | k
    · rw [findEntryAux_step_none entries cap key fuel _ tomb hk] at h
      by_cases hv : (entries.getD (probePath cap start j0) emptyEntry).value = Value.nil
      · rw [if_pos hv] at h
        injection h with h
        subst h
        rcases tomb with _ | tL
        · exact ⟨j0, by omega, by simp, hpre⟩
        · obtain ⟨jt, hjt, he⟩ := htomb tL rfl
          exact ⟨jt, by omega, by simpa using he,
            fun j' hj' => hpre j' (by omega)⟩
      · rw [if_neg hv] at h
        rw [probePath_succ] at h
        have hpre2 : ∀ j', j' < j0 + 1 → (probeSlot entries cap start j').isFree = false := by
          intro j' hj'
          rcases Nat.lt_or_ge j' j0 with h' | h'
          · exact hpre j' h'
          · have hj0 : j' = j0 := by omega
            subst hj0
            exact isFree_of_tombstone _ hk hv
        have htomb2 : ∀ tL, some (tomb.getD (probePath cap start j0)) = some tL →
            ∃ jt, jt < j0 + 1 ∧ tL = probePath cap start jt := by
          intro tL htl
          injection htl with htl
          subst htl
          rcases tomb with _ | tL0
          · exact ⟨j0, by omega, by simp⟩
          · obtain ⟨jt, hjt, he⟩ := htomb tL0 rfl
            exact ⟨jt, by omega, by simpa using he⟩
        obtain ⟨j, hj, hL, hf⟩ := ih (j0 + 1) _ L hpre2 htomb2 h
        exact ⟨j, by omega, hL, hf⟩
    · rw [findEntryAux_step_some entries cap key fuel _ tomb k hk] at h
      by_cases hs : k.sid = key.sid
      · rw [if_pos hs] at h
        injection h with h
        subst h
        exact ⟨j0, by omega, rfl, hpre⟩
      · rw [if_neg hs] at h
        rw [probePath_succ] at h
        have hpre2 : ∀ j', j' < j0 + 1 → (probeSlot entries cap start j').isFree = false := by
          intro j' hj'
          rcases Nat.lt_or_ge j' j0 with h' | h'
          · exact hpre j' h'
          · have hj0 : j' = j0 := by omega
            subst hj0
            exact isFree_of_key_some _ k hk
        have htomb2 : ∀ tL, tomb = some tL →
            ∃ jt, jt < j0 + 1 ∧ tL = probePath cap start jt := by
          intro tL htl
          obtain ⟨jt, hjt, he⟩ := htomb tL htl
          exact ⟨jt, by omega, he⟩
        obtain ⟨j, hj, hL, hf⟩ := ih (j0 + 1) tomb L hpre2 htomb2 h
        exact ⟨j, by omega, hL, hf⟩

/-- An exhausted probe visited only non-free, non-matching buckets. -/
theorem findEntryAux_none (entries : List Entry) (cap : Nat) (key : StrRef) (start : Nat) :
    ∀ (fuel j0 : Nat) (tomb : Option Nat),
      findEntryAux entries cap key fuel (probePath cap start j0) tomb = none →
      ∀ j, j0 ≤ j → j < j0 + fuel → (probeSlot entries cap start j).isFree = false := by
  intro fuel
  induction fuel with
  | zero => intro j0 tomb _ j h1 h2; omega
  | succ fuel ih =>
    intro j0 tomb h j hj1 hj2
    rcases hk : (entries.getD (probePath cap start j0) emptyEntry).key with _ | k
    · rw [findEntryAux_step_none entries cap key fuel _ tomb hk] at h
      by_cases hv : (entries.getD (probePath cap start j0) emptyEntry).value = Value.nil
      · rw [if_pos hv] at h
        exact absurd h (by simp)
      · rw [if_neg hv, probePath_succ] at h
        rcases Nat.eq_or_lt_of_le hj1 with he | hlt
        · subst he
          exact isFree_of_tombstone _ hk hv
        · exact ih (j0 + 1) _ h j hlt (by omega)
    · rw [findEntryAux_step_some entries cap key fuel _ tomb k hk] at h
      by_cases hs : k.sid = key.sid
      · rw [if_pos hs] at h
        exact absurd h (by simp)
      · rw [if_neg hs, probePath_succ] at h
        rcases Nat.eq_or_lt_of_le hj1 with he | hlt
        · subst he
          exact isFree_of_key_some _ k hk
        · exact ih (j0 + 1) _ h j hlt (by omega)

/-- A probe for a stored key, started from that key's own hash bucket, finds
a bucket holding that key. -/
theorem findEntryAux_complete (entries : List Entry) (cap : Nat) (key : StrRef)
    (start i j : Nat) (hcap : 0 < cap)
    (hj : probePath cap start j = i)
    (hkey : (entries.getD i emptyEntry).key = some key)
    (hpre : ∀ j', j' < j → (probeSlot entries cap start j').isFree = false)
    (huniq : ∀ i2, i2 < cap → ∀ k2, (entries.getD i2 emptyEntry).key = some k2 →
        k2.sid = key.sid → i2 = i) :
    ∀ (fuel j0 : Nat) (tomb : Option Nat), j0 ≤ j → j < j0 + fuel →
      ∃ L, findEntryAux entries cap key fuel (probePath cap start j0) tomb = some L
        ∧ (entries.getD L emptyEntry).key = some key := by
  intro fuel
  induction fuel with
  | zero => intro j0 tomb h1 h2; omega
  | succ fuel ih =>
    intro j0 tomb hj0 hlt
    rcases hk : (entries.getD (probePath cap start j0) emptyEntry).key with _ | k
    · rcases Nat.eq_or_lt_of_le hj0 with he | hstep
      · subst he
        rw [hj] at hk
        rw [hkey] at hk
        exact absurd hk (by simp)
      · rw [findEntryAux_step_none entries cap key fuel _ tomb hk]
        have hnf := hpre j0 hstep
        by_cases hv : (entries.getD (probePath cap start j0) emptyEntry).value = Value.nil
        · exfalso
          have hfr : (probeSlot entries cap start j0).isFree = true :=
            isFree_of_free _ hk hv
          rw [hfr] at hnf
          exact absurd hnf (by simp)
        · rw [if_neg hv, probePath_succ]
          exact ih (j0 + 1) _ hstep (by omega)
    · rw [findEntryAux_step_some entries cap key fuel _ tomb k hk]
      by_cases hs : k.sid = key.sid
      · rw [if_pos hs]
        refine ⟨probePath cap start j0, rfl, ?_⟩
        have hieq := huniq (probePath cap start j0) (probePath_lt cap start j0 hcap) k hk hs
        rw [hieq] at hk ⊢
        rw [hkey]
      · rcases Nat.eq_or_lt_of_le hj0 with he | hstep
        · exfalso
          subst he
          rw [hj, hkey] at hk
          injection hk with hk
          subst hk
          exact hs rfl
        · rw [if_neg hs, probePath_succ]
          exact ih (j0 + 1) tomb hstep (by omega)

theorem exists_free_slot (t : Table) (hwf : TableWF t) (hcap : 0 < t.capacity) :
    ∃ m, m < t.capacity ∧ (t.entries.getD m emptyEntry).isFree = true := by
  by_contra hno
  push_neg at hno
  have hall : ∀ e ∈ t.entries, (fun e => !e.isFree) e = true := by
    intro e he
    obtain ⟨i, hi, hgi⟩ := List.mem_iff_getElem.mp he
    have h2 := hno i hi
    have hgd : t.entries.getD i emptyEntry = e := by
      rw [entriesGetD]
      simp [List.getElem?_eq_getElem hi, hgi]
    rw [hgd] at h2
    simp only [Bool.not_eq_true] at h2
    simp [h2]
  have hfl : (t.entries.filter (fun e => !e.isFree)) = t.entries :=
    List.filter_eq_self.mpr hall
  have hcnt := hwf.countEq
  rw [hfl] at hcnt
  rcases hwf.loadOk with h | h
  · unfold Table.capacity at h
    omega
  · omega

theorem findEntry_isSome (entries : List Entry) (cap : Nat) (key : StrRef)
    (hfree : ∃ m, m < cap ∧ (entries.getD m emptyEntry).isFree = true) :
    ∃ L, findEntry entries cap key = some L := by
  obtain ⟨m, hm, hfr⟩ := hfree
  have hcap : 0 < cap := Nat.lt_of_le_of_lt (Nat.zero_le m) hm
  rcases hres : findEntry entries cap key with _ | L
  · exfalso
    unfold findEntry at hres
    rw [show key.hash % cap = probePath cap (key.hash % cap) 0 from
      (probePath_zero cap _ (Nat.mod_lt _ hcap)).symm] at hres
    have hall := findEntryAux_none entries cap key (key.hash % cap) cap 0 none hres
    obtain ⟨j, hj, hpj⟩ := exists_probe_offset cap (key.hash % cap) m hm
    have h2 := hall j (Nat.zero_le j) (by omega)
    unfold probeSlot at h2
    rw [hpj, hfr] at h2
    exact absurd h2 (by simp)
  · exact ⟨L, rfl⟩

theorem entry_getD_set_self (l : List Entry) (i : Nat) (e : Entry) (h : i < l.length) :
    (l.set i e).getD i emptyEntry = e := by
  rw [entriesGetD]
  simp [List.getElem?_set_self h]

theorem entry_getD_set_ne (l : List Entry) (i j : Nat) (e : Entry) (h : i ≠ j) :
    (l.set i e).getD j emptyEntry = l.getD j emptyEntry := by
  rw [entriesGetD, entriesGetD]
  rw [List.getElem?_set_ne h]

theorem filter_length_set (p : Entry → Bool) :
    ∀ (l : List Entry) (i : Nat), i < l.length → ∀ e : Entry,
      ((l.set i e).filter p).length + (if p (l.getD i emptyEntry) then 1 else 0)
        = (l.filter p).length + (if p e then 1 else 0) := by
  intro l
  induction l with
  | nil =>
    intro i hi
    exact absurd hi (by simp)
  | cons x xs ih =>
    intro i hi e
    cases i with
    | zero =>
      simp only [List.set, List.filter_cons, List.getD_cons_zero]
      by_cases hx : p x <;> by_cases he : p e <;> simp [hx, he]
    | succ n =>
      simp only [List.set, List.filter_cons, List.getD_cons_succ]
      have hn : n < xs.length := by simpa using hi
      have hrec := ih n hn e
      rw [entriesGetD] at hrec
      by_cases hx : p x <;> simp [hx] <;> omega

/-- Everything `findEntry`'s success tells us about the landing bucket. -/
theorem findEntry_spec (entries : List Entry) (cap : Nat) (key : StrRef) (L : Nat)
    (hf : findEntry entries cap key = some L) :
    0 < cap ∧ L < cap
    ∧ ((entries.getD L emptyEntry).key = none
        ∨ ∃ k, (entries.getD L emptyEntry).key = some k ∧ k.sid = key.sid)
    ∧ ∃ j, j < cap ∧ L = probePath cap (key.hash % cap) j ∧
        ∀ j', j' < j → (probeSlot entries cap (key.hash % cap) j').isFree = false := by
  have hcap : 0 < cap := by
    rcases Nat.eq_zero_or_pos cap with h0 | h
    · subst h0
      exact absurd hf (by simp [findEntry, findEntryAux])
    · exact h
  unfold findEntry at hf
  rw [show key.hash % cap = probePath cap (key.hash % cap) 0 from
    (probePath_zero cap _ (Nat.mod_lt _ hcap)).symm] at hf
  have hland := findEntryAux_landing entries cap key cap _ none L (by simp) hf
  have hpath := findEntryAux_path entries cap key (key.hash % cap) cap 0 none L
    (by omega) (by simp) hf
  obtain ⟨j, hj, hL, hfr⟩ := hpath
  refine ⟨hcap, ?_, hland, ⟨j, by omega, hL, hfr⟩⟩
  rw [hL]
  exact probePath_lt _ _ _ hcap

/-- A key stored in a well-formed table is found by `findEntry`, at its own
bucket. -/
theorem findEntry_complete (t : Table) (hwf : TableWF t) (key : StrRef) (i : Nat)
    (hi : i < t.capacity)
    (hkey : (t.entries.getD i emptyEntry).key = some key) :
    findEntry t.entries t.capacity key = some i := by
  have hcap : 0 < t.capacity := Nat.lt_of_le_of_lt (Nat.zero_le i) hi
  obtain ⟨j, hj, hpathj, hpre⟩ := hwf.probeOk i hi key hkey
  have huniq2 : ∀ i2, i2 < t.capacity → ∀ k2,
      (t.entries.getD i2 emptyEntry).key = some k2 → k2.sid = key.sid → i2 = i := by
    intro i2 hi2 k2 hk2 hs
    by_contra hne
    exact hwf.sidsDistinct i2 hi2 i hi k2 key hk2 hkey hne hs
  obtain ⟨L, hfL, hkeyL⟩ := findEntryAux_complete t.entries t.capacity key
    (key.hash % t.capacity) i j hcap hpathj.symm hkey hpre huniq2 t.capacity 0 none
    (Nat.zero_le j) (by omega)
  have hfind : findEntry t.entries t.capacity key = some L := by
    unfold findEntry
    rw [show key.hash % t.capacity = probePath t.capacity (key.hash % t.capacity) 0 from
      (probePath_zero _ _ (Nat.mod_lt _ hcap)).symm]
    exact hfL
  have hLlt : L < t.capacity := (findEntry_spec _ _ _ _ hfind).2.1
  have : L = i := huniq2 L hLlt key hkeyL rfl
  rw [← this]
  exact hfind

/-- In a well-formed table, the landing bucket of a fresh probe being keyless
means the key is stored nowhere. -/
theorem findEntry_absent_iff (t : Table) (hwf : TableWF t) (key : StrRef) (L : Nat)
    (hf : findEntry t.entries t.capacity key = some L)
    (huniq : ∀ i2, i2 < t.capacity → ∀ k2,
      (t.entries.getD i2 emptyEntry).key = some k2 → k2.sid = key.sid → k2 = key) :
    (t.entries.getD L emptyEntry).key = none
      ↔ ∀ i, i < t.capacity → ∀ k, (t.entries.getD i emptyEntry).key = some k →
          k.sid ≠ key.sid := by
  obtain ⟨hcap, hL, hland, _⟩ := findEntry_spec _ _ _ _ hf
  constructor
  · intro hnone i hi k hk hs
    have hkeq : k = key := huniq i hi k hk hs
    subst hkeq
    have := findEntry_complete t hwf k i hi hk
    rw [this] at hf
    injection hf with hf
    subst hf
    rw [hk] at hnone
    exact absurd hnone (by simp)
  · intro habs
    rcases hland with h | ⟨k, hk, hs⟩
    · exact h
    · exact absurd hs (habs L hL k hk)

theorem probeSlot_set_keyed (l : List Entry) (cap start L j' : Nat) (key : StrRef) (v : Value)
    (hlen : L < l.length)
    (hold : (probeSlot l cap start j').isFree = false ∨ probePath cap start j' = L) :
    (probeSlot (l.set L { key := some key, value := v }) cap start j').isFree = false := by
  by_cases he : probePath cap start j' = L
  · unfold probeSlot
    rw [he, entry_getD_set_self _ _ _ hlen]
    exact isFree_of_key_some _ key rfl
  · unfold probeSlot
    rw [entry_getD_set_ne _ _ _ _ (fun h => he h.symm)]
    rcases hold with h | h
    · exact h
    · exact absurd h he

/-- Writing `(key, v)` into the bucket `findEntry` picked — with `tableSet`'s
conditional count bump — preserves the table invariant. -/
theorem insert_preserves (t : Table) (key : StrRef) (v : Value) (L : Nat)
    (hwf : TableWF t)
    (hfind : findEntry t.entries t.capacity key = some L)
    (huniq : ∀ i2, i2 < t.capacity → ∀ k2, (t.entries.getD i2 emptyEntry).key = some k2 →
        k2.sid = key.sid → k2 = key)
    (hgrow : (t.entries.getD L emptyEntry).isFree = true → t.count + 1 < t.capacity) :
    TableWF { count := if (t.entries.getD L emptyEntry).isFree then t.count + 1 else t.count,
              entries := t.entries.set L { key := some key, value := v } } := by
  obtain ⟨hcap, hL, hland, j, hj, hLpath, hpre⟩ := findEntry_spec _ _ _ _ hfind
  have hlen : L < t.entries.length := hL
  have hcapEq : (t.entries.set L { key := some key, value := v }).length
      = t.entries.length := by simp
  have hLkey : ∀ i2, i2 < t.capacity → ∀ k2,
      (t.entries.getD i2 emptyEntry).key = some k2 → k2.sid = key.sid → i2 = L := by
    intro i2 hi2 k2 hk2 hs
    have hkeq : k2 = key := huniq i2 hi2 k2 hk2 hs
    subst hkeq
    have := findEntry_complete t hwf k2 i2 hi2 hk2
    rw [hfind] at this
    injection this with this
    exact this.symm
  refine ⟨?_, ?_, ?_, ?_⟩
  · -- countEq
    have hfls := filter_length_set (fun e => !e.isFree) t.entries L hlen
      { key := some key, value := v }
    rw [show ({ key := some key, value := v } : Entry).isFree = false from
      isFree_of_key_some _ key rfl] at hfls
    have hcnt := hwf.countEq
    dsimp only
    by_cases hfr : (t.entries.getD L emptyEntry).isFree = true
    · rw [if_pos hfr]
      rw [hfr] at hfls
      norm_num at hfls
      omega
    · rw [if_neg hfr]
      simp only [Bool.not_eq_true] at hfr
      rw [hfr] at hfls
      norm_num at hfls
      omega
  · -- loadOk
    left
    show (if (t.entries.getD L emptyEntry).isFree then t.count + 1 else t.count)
      < (t.entries.set L { key := some key, value := v }).length
    rw [hcapEq]
    by_cases hfr : (t.entries.getD L emptyEntry).isFree
    · rw [if_pos hfr]
      exact hgrow hfr
    · rw [if_neg hfr]
      rcases hwf.loadOk with h | h
      · exact h
      · unfold Table.capacity at h
        omega
  · -- sidsDistinct
    intro i1 hi1 i2 hi2 k1 k2 hk1 hk2 hne
    have hi1' : i1 < t.capacity := by
      unfold Table.capacity at hi1 ⊢
      rw [hcapEq] at hi1
      exact hi1
    have hi2' : i2 < t.capacity := by
      unfold Table.capacity at hi2 ⊢
      rw [hcapEq] at hi2
      exact hi2
    by_cases he1 : i1 = L <;> by_cases he2 : i2 = L
    · exact absurd (he1.trans he2.symm) hne
    · subst he1
      rw [entry_getD_set_self _ _ _ hlen] at hk1
      injection hk1 with hk1
      subst hk1
      rw [entry_getD_set_ne _ _ _ _ (fun h => he2 h.symm)] at hk2
      intro hs
      exact he2 (hLkey i2 hi2' k2 hk2 hs.symm)
    · subst he2
      rw [entry_getD_set_self _ _ _ hlen] at hk2
      injection hk2 with hk2
      subst hk2
      rw [entry_getD_set_ne _ _ _ _ (fun h => he1 h.symm)] at hk1
      intro hs
      exact he1 (hLkey i1 hi1' k1 hk1 hs)
    · rw [entry_getD_set_ne _ _ _ _ (fun h => he1 h.symm)] at hk1
      rw [entry_getD_set_ne _ _ _ _ (fun h => he2 h.symm)] at hk2
      exact hwf.sidsDistinct i1 hi1' i2 hi2' k1 k2 hk1 hk2 hne
  · -- probeOk
    intro i hi k hk
    have hi' : i < t.capacity := by
      unfold Table.capacity at hi ⊢
      rw [hcapEq] at hi
      exact hi
    have hcap' : Table.capacity
        { count := if (t.entries.getD L emptyEntry).isFree then t.count + 1 else t.count,
          entries := t.entries.set L { key := some key, value := v } }
        = t.capacity := by
      unfold Table.capacity
      exact hcapEq
    rw [hcap']
    by_cases he : i = L
    · subst he
      rw [entry_getD_set_self _ _ _ hlen] at hk
      injection hk with hk
      subst hk
      refine ⟨j, hj, hLpath, ?_⟩
      intro j' hj'
      exact probeSlot_set_keyed _ _ _ _ _ _ _ hlen (Or.inl (hpre j' hj'))
    · rw [entry_getD_set_ne _ _ _ _ (fun h => he h.symm)] at hk
      obtain ⟨j2, hj2, hpath2, hpre2⟩ := hwf.probeOk i hi' k hk
      refine ⟨j2, hj2, hpath2, ?_⟩
      intro j' hj'
      exact probeSlot_set_keyed _ _ _ _ _ _ _ hlen (Or.inl (hpre2 j' hj'))

theorem getD_replicate (cap i : Nat) :
    (List.replicate cap emptyEntry).getD i emptyEntry = emptyEntry := by
  rw [entriesGetD]
  rcases Nat.lt_or_ge i cap with h | h
  · simp [List.getElem?_replicate, h]
  · simp [List.getElem?_replicate, Nat.not_lt.mpr h]

theorem mem_of_getD_lt (l : List Entry) (i : Nat) (hi : i < l.length) :
    l.getD i emptyEntry ∈ l := by
  rw [entriesGetD, List.getElem?_eq_getElem hi]
  simp only [Option.getD_some]
  exact List.getElem_mem hi

theorem getD_of_mem (l : List Entry) (e : Entry) (he : e ∈ l) :
    ∃ i, i < l.length ∧ l.getD i emptyEntry = e := by
  obtain ⟨i, hi, hg⟩ := List.mem_iff_getElem.mp he
  refine ⟨i, hi, ?_⟩
  rw [entriesGetD, List.getElem?_eq_getElem hi]
  simpa using hg

theorem rehashInv_init (cap : Nat) (hcap : 0 < cap) :
    RehashInv cap [] { count := 0, entries := List.replicate cap emptyEntry } := by
  have hgd : ∀ i : Nat, (List.replicate cap emptyEntry).getD i emptyEntry = emptyEntry :=
    getD_replicate cap
  refine ⟨⟨?_, ?_, ?_, ?_⟩, ?_, ?_, ?_, ?_, ?_⟩
  · show (0 : Nat) = _
    have : ∀ n : Nat, (List.filter (fun e => !e.isFree)
        (List.replicate n emptyEntry)).length = 0 := by
      intro n
      induction n with
      | zero => rfl
      | succ n ih =>
        rw [List.replicate_succ, List.filter_cons]
        simp only [show (!(emptyEntry).isFree) = false by rfl]
        simpa using ih
    exact (this cap).symm
  · left
    show 0 < (List.replicate cap emptyEntry).length
    simpa using hcap
  · intro i1 _ i2 _ k1 k2 hk1 _ _
    rw [hgd i1] at hk1
    exact absurd hk1 (by simp [emptyEntry])
  · intro i _ k hk
    rw [hgd i] at hk
    exact absurd hk (by simp [emptyEntry])
  · show (List.replicate cap emptyEntry).length = cap
    simp
  · intro i _ _
    rw [hgd i]
    rfl
  · rfl
  · intro i _ hk
    rw [hgd i] at hk
    exact absurd hk (by simp [emptyEntry])
  · intro e he
    exact absurd he (by simp)

theorem rehash_fold (cap : Nat) (src : List Entry)
    (hdist : PairwiseSids src)
    (hkeys : (src.filter (fun e => e.key.isSome)).length < cap) :
    ∀ (rest pre : List Entry), src = pre ++ rest →
      ∀ tb, RehashInv cap pre tb →
        ∃ t2, List.foldl (rehashInto cap) (some tb) rest = some t2
          ∧ RehashInv cap src t2 := by
  intro rest
  induction rest with
  | nil =>
    intro pre hsrc tb hinv
    refine ⟨tb, by simp, ?_⟩
    rw [hsrc]
    simpa using hinv
  | cons e rest' ih =>
    intro pre hsrc tb hinv
    obtain ⟨hwf, hcapeq, hnotomb, hcount, hfwd, hbwd⟩ := hinv
    rcases hke : e.key with _ | k
    · have hstep : rehashInto cap (some tb) e = some tb := by
        simp [rehashInto, hke]
      rw [List.foldl_cons, hstep]
      refine ih (pre ++ [e]) (by rw [hsrc]; simp) tb
        ⟨hwf, hcapeq, hnotomb, ?_, ?_, ?_⟩
      · rw [List.filter_append, List.length_append]
        have : (List.filter (fun e => e.key.isSome) [e]).length = 0 := by
          simp [List.filter_cons, hke]
        omega
      · intro i hi hk
        exact List.mem_append_left _ (hfwd i hi hk)
      · intro e2 he2 hk2
        rcases List.mem_append.mp he2 with h | h
        · exact hbwd e2 h hk2
        · have he2e : e2 = e := by simpa using h
          subst he2e
          rw [hke] at hk2
          exact absurd hk2 (by simp)
    · -- keyed source entry: reinsert it
      have hcappos : 0 < cap := Nat.lt_of_le_of_lt (Nat.zero_le _) hkeys
      have hfree : ∃ m, m < tb.capacity ∧ (tb.entries.getD m emptyEntry).isFree = true :=
        exists_free_slot tb hwf (by rw [hcapeq]; exact hcappos)
      obtain ⟨L, hfindc⟩ := findEntry_isSome tb.entries tb.capacity k hfree
      have hfind : findEntry tb.entries cap k = some L := by
        rw [← hcapeq]
        exact hfindc
      -- the position of e in src
      have hsq : src.getD pre.length emptyEntry = e := by
        rw [hsrc, List.getD_append_right _ _ _ _ (Nat.le_refl _)]
        simp
      have hsrclen : src.length = pre.length + (rest'.length + 1) := by
        rw [hsrc]
        simp
      -- no key with k's sid is stored in tb
      have habs : ∀ i2, i2 < tb.capacity → ∀ k2,
          (tb.entries.getD i2 emptyEntry).key = some k2 → k2.sid ≠ k.sid := by
        intro i2 hi2 k2 hk2 hs
        have hmem := hfwd i2 (by rw [← hcapeq]; exact hi2) (by rw [hk2]; rfl)
        obtain ⟨p, hp, hpe⟩ := getD_of_mem pre _ hmem
        have hsp : src.getD p emptyEntry = tb.entries.getD i2 emptyEntry := by
          rw [hsrc, List.getD_append _ _ _ _ hp]
          exact hpe
        refine hdist p pre.length (by omega) (by omega) (by omega) k2 k ?_ ?_ hs
        · rw [hsp]
          exact hk2
        · rw [hsq]
          exact hke
      have huniq : ∀ i2, i2 < tb.capacity → ∀ k2,
          (tb.entries.getD i2 emptyEntry).key = some k2 → k2.sid = k.sid → k2 = k := by
        intro i2 hi2 k2 hk2 hs
        exact absurd hs (habs i2 hi2 k2 hk2)
      -- the landing bucket is truly free
      obtain ⟨_, hLlt, hland, _⟩ := findEntry_spec _ _ _ _ hfindc
      have hkeyL : (tb.entries.getD L emptyEntry).key = none := by
        rcases hland with h | ⟨k2, hk2, hs⟩
        · exact h
        · exact absurd hs (habs L hLlt k2 hk2)
      have hfreeL : (tb.entries.getD L emptyEntry).isFree = true :=
        isFree_of_free _ hkeyL (hnotomb L (by rw [← hcapeq]; exact hLlt) hkeyL)
      -- the load bound
      have hkpre : (pre.filter (fun e => e.key.isSome)).length + 1
          ≤ (src.filter (fun e => e.key.isSome)).length := by
        rw [hsrc, List.filter_append, List.length_append, List.filter_cons]
        simp [hke]
      have hgrow : tb.count + 1 < tb.capacity := by
        rw [hcapeq, hcount]
        omega
      have hWF2 := insert_preserves tb k e.value L hwf hfindc huniq (fun _ => hgrow)
      rw [if_pos hfreeL] at hWF2
      have hstep : rehashInto cap (some tb) e = some
          { count := tb.count + 1,
            entries := tb.entries.set L { key := some k, value := e.value } } := by
        simp [rehashInto, hke, hfind]
      rw [List.foldl_cons, hstep]
      have heeta : ({ key := some k, value := e.value } : Entry) = e := by
        rcases e with ⟨ek, ev⟩
        simp only at hke
        subst hke
        rfl
      have hlenL : L < tb.entries.length := hLlt
      refine ih (pre ++ [e]) (by rw [hsrc]; simp) _
        ⟨hWF2, ?_, ?_, ?_, ?_, ?_⟩
      · show (tb.entries.set L _).length = cap
        rw [List.length_set, ← hcapeq]
        rfl
      · intro i hi hkn
        by_cases hiL : i = L
        · subst hiL
          rw [entry_getD_set_self _ _ _ hlenL] at hkn
          exact absurd hkn (by simp)
        · rw [entry_getD_set_ne _ _ _ _ (fun h => hiL h.symm)] at hkn ⊢
          exact hnotomb i hi hkn
      · show tb.count + 1 = _
        rw [List.filter_append, List.length_append, List.filter_cons]
        simp only [hke, Option.isSome_some, if_pos]
        rw [hcount]
        simp
      · intro i hi hk2
        by_cases hiL : i = L
        · subst hiL
          rw [entry_getD_set_self _ _ _ hlenL]
          rw [heeta]
          exact List.mem_append_right _ (by simp)
        · rw [entry_getD_set_ne _ _ _ _ (fun h => hiL h.symm)] at hk2 ⊢
          exact List.mem_append_left _ (hfwd i hi hk2)
      · intro e2 he2 hk2
        rcases List.mem_append.mp he2 with h | h
        · obtain ⟨i, hi, he2i⟩ := hbwd e2 h hk2
          have hiL : i ≠ L := by
            intro hcon
            subst hcon
            rw [he2i] at hkeyL
            rw [hkeyL] at hk2
            exact absurd hk2 (by simp)
          refine ⟨i, hi, ?_⟩
          rw [entry_getD_set_ne _ _ _ _ (fun hcon => hiL hcon.symm)]
          exact he2i
        · have he2e : e2 = e := by simpa using h
          subst he2e
          refine ⟨L, by rw [← hcapeq]; exact hLlt, ?_⟩
          rw [entry_getD_set_self _ _ _ hlenL]
          exact heeta

theorem pairwiseSids_of_wf (t : Table) (hwf : TableWF t) : PairwiseSids t.entries :=
  fun p1 p2 h1 h2 hne k1 k2 hk1 hk2 =>
    hwf.sidsDistinct p1 h1 p2 h2 k1 k2 hk1 hk2 hne

theorem keyed_le_nonfree (l : List Entry) :
    (l.filter (fun e => e.key.isSome)).length ≤ (l.filter (fun e => !e.isFree)).length := by
  induction l with
  | nil => simp
  | cons x xs ih =>
    simp only [List.filter_cons]
    by_cases hk : x.key.isSome = true
    · have hnf : (!x.isFree) = true := by
        rcases hx : x.key with _ | k
        · rw [hx] at hk
          exact absurd hk (by simp)
        · simp [isFree_of_key_some x k hx]
      rw [if_pos hk, if_pos hnf]
      simp only [List.length_cons]
      omega
    · rw [if_neg hk]
      by_cases hnf : (!x.isFree) = true
      · rw [if_pos hnf]
        simp only [List.length_cons]
        omega
      · rw [if_neg hnf]
        exact ih

theorem count_pos_of_keyed (t : Table) (hwf : TableWF t) (i : Nat) (hi : i < t.capacity)
    (k : StrRef) (hk : (t.entries.getD i emptyEntry).key = some k) :
    t.count ≠ 0 := by
  have hmem : t.entries.getD i emptyEntry ∈ t.entries := mem_of_getD_lt _ _ hi
  have hnf : (t.entries.getD i emptyEntry).isFree = false := isFree_of_key_some _ k hk
  have hinf : t.entries.getD i emptyEntry ∈ t.entries.filter (fun e => !e.isFree) :=
    List.mem_filter.mpr ⟨hmem, by rw [hnf]; rfl⟩
  have hpos : 0 < (t.entries.filter (fun e => !e.isFree)).length :=
    List.length_pos.mpr (List.ne_nil_of_mem hinf)
  rw [hwf.countEq]
  omega

theorem probeSlot_set_nonfree (l : List Entry) (cap start L j' : Nat) (enew : Entry)
    (hlen : L < l.length) (hnew : enew.isFree = false)
    (hold : (probeSlot l cap start j').isFree = false ∨ probePath cap start j' = L) :
    (probeSlot (l.set L enew) cap start j').isFree = false := by
  by_cases he : probePath cap start j' = L
  · unfold probeSlot
    rw [he, entry_getD_set_self _ _ _ hlen]
    exact hnew
  · unfold probeSlot
    rw [entry_getD_set_ne _ _ _ _ (fun h => he h.symm)]
    rcases hold with h | h
    · exact h
    · exact absurd h he

theorem adjustCapacity_wf (t : Table) (cap : Nat) (hwf : TableWF t)
    (hkeys : (t.entries.filter (fun e => e.key.isSome)).length < cap) :
    ∃ t2, adjustCapacity t cap = some t2 ∧ RehashInv cap t.entries t2 := by
  have hcap : 0 < cap := Nat.lt_of_le_of_lt (Nat.zero_le _) hkeys
  obtain ⟨t2, hfold, hinv⟩ := rehash_fold cap t.entries (pairwiseSids_of_wf t hwf) hkeys
    t.entries [] (by simp) _ (rehashInv_init cap hcap)
  exact ⟨t2, hfold, hinv⟩

/-- The growth step of `tableSet` yields a well-formed table with strict room
for one more entry, preserving the keyed buckets exactly. -/
theorem growIfNeeded_wf (t : Table) (hwf : TableWF t) :
    ∃ t2, growIfNeeded t = some t2 ∧ TableWF t2 ∧ t2.count + 1 < t2.capacity
      ∧ (∀ k v, HasEntry t2 k v ↔ HasEntry t k v)
      ∧ (∀ i, i < t2.capacity → ∀ k2, (t2.entries.getD i emptyEntry).key = some k2 →
          ∃ i0, i0 < t.capacity ∧
            t.entries.getD i0 emptyEntry = t2.entries.getD i emptyEntry) := by
  unfold growIfNeeded
  by_cases hload : 4 * (t.count + 1) > 3 * t.capacity
  · rw [if_pos hload]
    have hkeyle : (t.entries.filter (fun e => e.key.isSome)).length ≤ t.count := by
      rw [hwf.countEq]
      exact keyed_le_nonfree t.entries
    have hkeys : (t.entries.filter (fun e => e.key.isSome)).length + 1
        < growCapacity t.capacity := by
      unfold growCapacity
      rcases hwf.loadOk with h | h
      · split <;> omega
      · have : t.count = 0 := by
          rw [hwf.countEq]
          have : t.entries.length = 0 := h
          have h0 : t.entries = [] := List.length_eq_zero.mp this
          rw [h0]
          rfl
        split <;> omega
    obtain ⟨t2, hadj, hwf2, hcap2, hnotomb2, hcount2, hfwd2, hbwd2⟩ :=
      adjustCapacity_wf t (growCapacity t.capacity) hwf (by omega)
    refine ⟨t2, hadj, hwf2, ?_, ?_, ?_⟩
    · rw [hcap2, hcount2]
      omega
    · intro k v
      constructor
      · rintro ⟨i, hi, he⟩
        have hk : (t2.entries.getD i emptyEntry).key.isSome = true := by
          rw [he]
          rfl
        have hmem := hfwd2 i (by rw [← hcap2]; exact hi) hk
        rw [he] at hmem
        obtain ⟨i0, hi0, he0⟩ := getD_of_mem t.entries _ hmem
        exact ⟨i0, hi0, he0⟩
      · rintro ⟨i0, hi0, he0⟩
        have hmem : ({ key := some k, value := v } : Entry) ∈ t.entries := by
          rw [← he0]
          exact mem_of_getD_lt _ _ hi0
        obtain ⟨i, hi, hei⟩ := hbwd2 _ hmem rfl
        exact ⟨i, by rw [hcap2]; exact hi, hei⟩
    · intro i hi k2 hk2
      have hmem := hfwd2 i (by rw [← hcap2]; exact hi) (by rw [hk2]; rfl)
      obtain ⟨i0, hi0, he0⟩ := getD_of_mem t.entries _ hmem
      exact ⟨i0, hi0, he0⟩
  · rw [if_neg hload]
    push_neg at hload
    have hcapPos : t.count + 1 < t.capacity := by omega
    exact ⟨t, rfl, hwf, hcapPos, fun k v => Iff.rfl, fun i hi k2 hk2 => ⟨i, hi, rfl⟩⟩

theorem hasEntry_of_key (t : Table) (i : Nat) (k : StrRef) (hi : i < t.capacity)
    (hk : (t.entries.getD i emptyEntry).key = some k) :
    HasEntry t k (t.entries.getD i emptyEntry).value :=
  ⟨i, hi, by rw [← hk]⟩

theorem capacity_pos_of_count_ne (t : Table) (hwf : TableWF t) (hcnt : t.count ≠ 0) :
    0 < t.capacity := by
  rcases hwf.loadOk with h | h
  · omega
  · exfalso
    apply hcnt
    rw [hwf.countEq]
    have h0 : t.entries = [] := List.length_eq_zero.mp h
    rw [h0]
    rfl

/-- `tableGet` on a stored key returns the stored value. -/
theorem tableGet_found (t : Table) (key : StrRef) (hwf : TableWF t) (i : Nat)
    (hi : i < t.capacity) (hk : (t.entries.getD i emptyEntry).key = some key) :
    tableGet t key = some (some (t.entries.getD i emptyEntry).value) := by
  have hcnt := count_pos_of_keyed t hwf i hi key hk
  have hfe := findEntry_complete t hwf key i hi hk
  have hk' := hk
  rw [entriesGetD] at hk'
  simp [tableGet, hcnt, hfe, hk']

/-- `tableGet` on a key whose object id is stored nowhere reports a miss. -/
theorem tableGet_absent (t : Table) (key : StrRef) (hwf : TableWF t)
    (habs : ∀ i, i < t.capacity → ∀ k, (t.entries.getD i emptyEntry).key = some k →
      k.sid ≠ key.sid) :
    tableGet t key = some none := by
  by_cases hcnt : t.count = 0
  · simp [tableGet, hcnt]
  · have hcapPos := capacity_pos_of_count_ne t hwf hcnt
    obtain ⟨L, hf⟩ := findEntry_isSome t.entries t.capacity key (exists_free_slot t hwf hcapPos)
    have hnone : (t.entries.getD L emptyEntry).key = none := by
      obtain ⟨_, hL, hland, _⟩ := findEntry_spec _ _ _ _ hf
      rcases hland with h | ⟨k0, hk0, hs0⟩
      · exact h
      · exact absurd hs0 (habs L hL k0 hk0)
    rw [entriesGetD] at hnone
    simp [tableGet, hcnt, hf, hnone]

/-- `tableDelete` terminates, preserves well-formedness and the count (a
tombstone still occupies its bucket), removes every binding of the key's
object id, and leaves every other binding untouched. -/
theorem tableDelete_spec_wf (t : Table) (key : StrRef) (hwf : TableWF t)
    (huniq : ∀ i2, i2 < t.capacity → ∀ k2, (t.entries.getD i2 emptyEntry).key = some k2 →
        k2.sid = key.sid → k2 = key) :
    ∃ t' existed, tableDelete t key = some (t', existed)
      ∧ TableWF t'
      ∧ t'.count = t.count ∧ t'.capacity = t.capacity
      ∧ (∀ i, i < t'.capacity → ∀ k2, (t'.entries.getD i emptyEntry).key = some k2 →
          k2.sid ≠ key.sid)
      ∧ (∀ k2 v2, k2.sid ≠ key.sid → (HasEntry t' k2 v2 ↔ HasEntry t k2 v2)) := by
  by_cases hcnt : t.count = 0
  · refine ⟨t, false, by simp [tableDelete, hcnt], hwf, rfl, rfl, ?_, fun _ _ _ => Iff.rfl⟩
    intro i hi k2 hk2
    exact absurd hcnt (count_pos_of_keyed t hwf i hi k2 hk2)
  · have hcapPos := capacity_pos_of_count_ne t hwf hcnt
    obtain ⟨L, hf⟩ := findEntry_isSome t.entries t.capacity key (exists_free_slot t hwf hcapPos)
    obtain ⟨_, hL, hland, j, hj, hLpath, hpres⟩ := findEntry_spec _ _ _ _ hf
    have hLlen : L < t.entries.length := hL
    rcases hkL : (t.entries.getD L emptyEntry).key with _ | k0
    · have hkL' : (t.entries[L]?.getD emptyEntry).key = none := by
        rw [← entriesGetD]
        exact hkL
      refine ⟨t, false, by simp [tableDelete, hcnt, hf, hkL'], hwf, rfl, rfl, ?_,
        fun _ _ _ => Iff.rfl⟩
      exact (findEntry_absent_iff t hwf key L hf huniq).mp hkL
    · have hsid0 : k0.sid = key.sid := by
        rcases hland with h | ⟨k1, hk1, hs1⟩
        · rw [hkL] at h
          cases h
        · rw [hkL] at hk1
          injection hk1 with h1
          rw [h1]
          exact hs1
      have hkL' : (t.entries[L]?.getD emptyEntry).key = some k0 := by
        rw [← entriesGetD]
        exact hkL
      have hdel : tableDelete t key =
          some ({ t with entries := t.entries.set L { key := none, value := Value.bool true } },
                true) := by
        simp [tableDelete, hcnt, hf, hkL']
      have hcapE :
          ({ t with entries := t.entries.set L { key := none, value := Value.bool true } }
            : Table).capacity = t.capacity := by
        show (t.entries.set L _).length = t.entries.length
        exact List.length_set t.entries L _
      have hnf1 : (t.entries.getD L emptyEntry).isFree = false := isFree_of_key_some _ k0 hkL
      have hnf2 : ({ key := none, value := Value.bool true } : Entry).isFree = false := by
        decide
      refine ⟨_, true, hdel, ?_, rfl, hcapE, ?_, ?_⟩
      · constructor
        · have hfl := filter_length_set (fun e => !e.isFree) t.entries L hLlen
            { key := none, value := Value.bool true }
          simp only [hnf1, hnf2] at hfl
          norm_num at hfl
          show t.count = (List.filter (fun e => !e.isFree)
            (t.entries.set L { key := none, value := Value.bool true })).length
          rw [hwf.countEq]
          omega
        · rcases hwf.loadOk with h | h
          · left
            show t.count < ({ t with entries := _ } : Table).capacity
            rw [hcapE]
            exact h
          · right
            rw [hcapE]
            exact h
        · intro i1 hi1 i2 hi2 k1 k2 hk1 hk2 hne
          rw [hcapE] at hi1 hi2
          have hi1L : i1 ≠ L := by
            intro h
            rw [h, entry_getD_set_self _ _ _ hLlen] at hk1
            cases hk1
          have hi2L : i2 ≠ L := by
            intro h
            rw [h, entry_getD_set_self _ _ _ hLlen] at hk2
            cases hk2
          rw [entry_getD_set_ne _ _ _ _ (Ne.symm hi1L)] at hk1
          rw [entry_getD_set_ne _ _ _ _ (Ne.symm hi2L)] at hk2
          exact hwf.sidsDistinct i1 hi1 i2 hi2 k1 k2 hk1 hk2 hne
        · intro i hi k hk
          rw [hcapE] at hi
          have hiL : i ≠ L := by
            intro h
            rw [h, entry_getD_set_self _ _ _ hLlen] at hk
            cases hk
          rw [entry_getD_set_ne _ _ _ _ (Ne.symm hiL)] at hk
          obtain ⟨j1, hj1, hpath1, hpre1⟩ := hwf.probeOk i hi k hk
          rw [hcapE]
          refine ⟨j1, hj1, hpath1, ?_⟩
          intro j' hj'
          exact probeSlot_set_nonfree t.entries t.capacity (k.hash % t.capacity) L j' _
            hLlen hnf2 (Or.inl (hpre1 j' hj'))
      · intro i hi k2 hk2
        rw [hcapE] at hi
        by_cases hiL : i = L
        · rw [hiL, entry_getD_set_self _ _ _ hLlen] at hk2
          cases hk2
        · rw [entry_getD_set_ne _ _ _ _ (Ne.symm hiL)] at hk2
          intro hsid
          exact hwf.sidsDistinct i hi L hL k2 k0 hk2 hkL hiL (by rw [hsid, hsid0])
      · intro k2 v2 hne
        constructor
        · rintro ⟨i, hi, he⟩
          rw [hcapE] at hi
          have hiL : i ≠ L := by
            intro h
            rw [h, entry_getD_set_self _ _ _ hLlen] at he
            have : (({ key := none, value := Value.bool true } : Entry)).key = some k2 := by
              rw [he]
            cases this
          rw [entry_getD_set_ne _ _ _ _ (Ne.symm hiL)] at he
          exact ⟨i, hi, he⟩
        · rintro ⟨i, hi, he⟩
          have hiL : i ≠ L := by
            intro h
            rw [h] at he
            have hk2 : (t.entries.getD L emptyEntry).key = some k2 := by
              rw [he]
            rw [hkL] at hk2
            injection hk2 with h2
            exact hne (by rw [← h2]; exact hsid0)
          refine ⟨i, by rw [hcapE]; exact hi, ?_⟩
          rw [entry_getD_set_ne _ _ _ _ (Ne.symm hiL)]
          exact he

/-- `tableSet` on a well-formed table terminates and performs a map update:
the result is well formed, binds the key to the value, leaves every other
object id's bindings untouched, and reports `true` exactly when the key's
object id was absent. -/
theorem tableSet_spec_wf (t : Table) (key : StrRef) (v : Value) (hwf : TableWF t)
    (huniq : ∀ i2, i2 < t.capacity → ∀ k2, (t.entries.getD i2 emptyEntry).key = some k2 →
        k2.sid = key.sid → k2 = key) :
    ∃ t' wasNew, tableSet t key v = some (t', wasNew)
      ∧ TableWF t'
      ∧ HasEntry t' key v
      ∧ (∀ k2 v2, k2.sid ≠ key.sid → (HasEntry t' k2 v2 ↔ HasEntry t k2 v2))
      ∧ (wasNew = true ↔ ∀ i, i < t.capacity → ∀ k2,
          (t.entries.getD i emptyEntry).key = some k2 → k2.sid ≠ key.sid)
      ∧ (∀ i, i < t'.capacity → ∀ k2, (t'.entries.getD i emptyEntry).key = some k2 →
          k2 = key ∨ ∃ i0, i0 < t.capacity ∧
            t.entries.getD i0 emptyEntry = t'.entries.getD i emptyEntry) := by
  obtain ⟨t2, hg, hwf2, hroom, hpairs, hsub⟩ := growIfNeeded_wf t hwf
  have huniq2 : ∀ i2, i2 < t2.capacity → ∀ k2,
      (t2.entries.getD i2 emptyEntry).key = some k2 → k2.sid = key.sid → k2 = key := by
    intro i2 hi2 k2 hk2 hs
    obtain ⟨i0, hi0, he0⟩ := hsub i2 hi2 k2 hk2
    exact huniq i0 hi0 k2 (by rw [he0]; exact hk2) hs
  have hcap2 : 0 < t2.capacity := by omega
  obtain ⟨L, hf⟩ := findEntry_isSome t2.entries t2.capacity key
    (exists_free_slot t2 hwf2 hcap2)
  obtain ⟨_, hL, hland, j, hj, hLpath, hpres⟩ := findEntry_spec _ _ _ _ hf
  have hLlen : L < t2.entries.length := hL
  have hwfIns := insert_preserves t2 key v L hwf2 hf huniq2 (fun _ => hroom)
  have hset : tableSet t key v = some
      ({ count := if (t2.entries.getD L emptyEntry).key.isNone
              && ((t2.entries.getD L emptyEntry).value == Value.nil)
            then t2.count + 1 else t2.count,
         entries := t2.entries.set L { key := some key, value := v } },
        (t2.entries.getD L emptyEntry).key.isNone) := by
    simp [tableSet, hg, hf]
  have hcnt : (if ((t2.entries.getD L emptyEntry).key.isNone
          && ((t2.entries.getD L emptyEntry).value == Value.nil)) = true
        then t2.count + 1 else t2.count)
      = if (t2.entries.getD L emptyEntry).isFree then t2.count + 1 else t2.count := by
    generalize t2.entries.getD L emptyEntry = e
    rcases e with ⟨ek, ev⟩
    rcases ek with _ | k <;> by_cases hv : ev = Value.nil <;> simp [Entry.isFree, hv]
  rw [hcnt] at hset
  have hcapE :
      ({ count := (if (t2.entries.getD L emptyEntry).isFree then t2.count + 1 else t2.count),
         entries := t2.entries.set L { key := some key, value := v } } : Table).capacity
      = t2.capacity := by
    show (t2.entries.set L _).length = t2.entries.length
    exact List.length_set t2.entries L _
  refine ⟨_, _, hset, hwfIns, ?_, ?_, ?_, ?_⟩
  · exact ⟨L, by rw [hcapE]; exact hL, entry_getD_set_self _ _ _ hLlen⟩
  · intro k2 v2 hne
    rw [← hpairs k2 v2]
    constructor
    · rintro ⟨i, hi, he⟩
      rw [hcapE] at hi
      have he' : (t2.entries.set L { key := some key, value := v }).getD i emptyEntry
          = { key := some k2, value := v2 } := he
      have hiL : i ≠ L := by
        intro h
        rw [h, entry_getD_set_self _ _ _ hLlen] at he'
        have h0 : some key = some k2 := congrArg Entry.key he'
        injection h0 with h2
        exact hne (by rw [← h2])
      rw [entry_getD_set_ne _ _ _ _ (Ne.symm hiL)] at he'
      exact ⟨i, hi, he'⟩
    · rintro ⟨i, hi, he⟩
      have hiL : i ≠ L := by
        intro h
        rw [h] at he
        rcases hland with hnone | ⟨k1, hk1, hs1⟩
        · rw [he] at hnone
          cases hnone
        · rw [he] at hk1
          injection hk1 with h2
          exact hne (by rw [h2]; exact hs1)
      refine ⟨i, by rw [hcapE]; exact hi, ?_⟩
      show (t2.entries.set L { key := some key, value := v }).getD i emptyEntry
        = { key := some k2, value := v2 }
      rw [entry_getD_set_ne _ _ _ _ (Ne.symm hiL)]
      exact he
  · rw [Option.isNone_iff_eq_none]
    rw [findEntry_absent_iff t2 hwf2 key L hf huniq2]
    constructor
    · intro habs2 i hi k2 hk2
      intro hsid
      obtain ⟨i2, hi2, he2⟩ := (hpairs k2 (t.entries.getD i emptyEntry).value).mpr
        (hasEntry_of_key t i k2 hi hk2)
      exact habs2 i2 hi2 k2 (by rw [he2]) hsid
    · intro habs i2 hi2 k2 hk2
      obtain ⟨i0, hi0, he0⟩ := hsub i2 hi2 k2 hk2
      exact habs i0 hi0 k2 (by rw [he0]; exact hk2)
  · intro i hi k2 hk2
    rw [hcapE] at hi
    have hk2' : ((t2.entries.set L { key := some key, value := v }).getD i emptyEntry).key
        = some k2 := hk2
    by_cases hiL : i = L
    · left
      rw [hiL, entry_getD_set_self _ _ _ hLlen] at hk2'
      injection hk2' with h2
      exact h2.symm
    · right
      rw [entry_getD_set_ne _ _ _ _ (Ne.symm hiL)] at hk2'
      obtain ⟨i0, hi0, he0⟩ := hsub i hi k2 hk2'
      refine ⟨i0, hi0, ?_⟩
      show t.entries.getD i0 emptyEntry
        = (t2.entries.set L { key := some key, value := v }).getD i emptyEntry
      rw [entry_getD_set_ne _ _ _ _ (Ne.symm hiL)]
      exact he0

theorem tableWF_initTable : TableWF initTable := by
  constructor
  · rfl
  · exact Or.inr rfl
  · intro i1 hi1
    exact absurd hi1 (Nat.not_lt_zero i1)
  · intro i hi
    exact absurd hi (Nat.not_lt_zero i)

/-- C4: executing OP_SET_GLOBAL on a well-formed globals table: when the named
variable is nowhere defined, the step raises the runtime error "Undefined
variable 'X'." and the zombie entry inserted by the store is deleted again, so
the resulting globals table still reports the name undefined on lookup and
holds exactly the bindings it held before; when the variable is defined, the
step succeeds, the value is stored under the name, every other binding is
untouched, and the stack is not popped. -/
theorem set_global_zombie_delete
    (st : VMState) (frame : CallFrame) (rest : List CallFrame)
    (ch : Chunk) (b : Nat) (cv : Value) (name : StrRef) (v : Value)
    (hfr : st.frames = frame :: rest)
    (hch : frameChunk? st frame = some ch)
    (hinstr : ch.code[frame.ip]? = some (OpCode.code .opSetGlobal))
    (hb : ch.code[frame.ip + 1]? = some b)
    (hcv : ch.constants[b]? = some cv)
    (hname : readString? st cv = some name)
    (hpk : st.peek 0 = some v)
    (hwf : TableWF st.globals)
    (huniq : ∀ i2, i2 < st.globals.capacity → ∀ k2,
        (st.globals.entries.getD i2 emptyEntry).key = some k2 →
        k2.sid = name.sid → k2 = name) :
    ((∀ i, i < st.globals.capacity → ∀ k,
        (st.globals.entries.getD i emptyEntry).key = some k → k.sid ≠ name.sid) →
      ∃ g2, runStep st
          = .errRuntime (.undefinedVariable name.chars)
              (runtimeError { st with globals := g2 })
        ∧ TableWF g2
        ∧ tableGet g2 name = some none
        ∧ (∀ k2 v2, k2.sid ≠ name.sid → (HasEntry g2 k2 v2 ↔ HasEntry st.globals k2 v2)))
    ∧ ((∃ i0, i0 < st.globals.capacity
          ∧ (st.globals.entries.getD i0 emptyEntry).key = some name) →
      ∃ g1, runStep st = .ok ({ st with globals := g1 }.withIp (frame.ip + 2))
        ∧ TableWF g1
        ∧ tableGet g1 name = some (some v)
        ∧ (∀ k2 v2, k2.sid ≠ name.sid → (HasEntry g1 k2 v2 ↔ HasEntry st.globals k2 v2))
        ∧ ({ st with globals := g1 }.withIp (frame.ip + 2)).stack = st.stack
        ∧ ({ st with globals := g1 }.withIp (frame.ip + 2)).frames
            = { frame with ip := frame.ip + 2 } :: rest) := by
  obtain ⟨t', wasNew, hts, hwf', hHas, hpairsT, hnewIff, hsubT⟩ :=
    tableSet_spec_wf st.globals name v hwf huniq
  constructor
  · intro habs
    have hwn : wasNew = true := hnewIff.mpr habs
    have huniqT : ∀ i2, i2 < t'.capacity → ∀ k2,
        (t'.entries.getD i2 emptyEntry).key = some k2 → k2.sid = name.sid → k2 = name := by
      intro i2 hi2 k2 hk2 hs
      rcases hsubT i2 hi2 k2 hk2 with h | ⟨i0, hi0, he0⟩
      · exact h
      · exact huniq i0 hi0 k2 (by rw [he0]; exact hk2) hs
    obtain ⟨g2, ex, hdel, hwfD, hcntD, hcapD, habsD, hpairsD⟩ :=
      tableDelete_spec_wf t' name hwf' huniqT
    refine ⟨g2, ?_, hwfD, tableGet_absent g2 name hwfD habsD, ?_⟩
    · simp only [runStep, hfr, hch, hinstr]
      norm_num [OpCode.code, hb, hcv, hname, hpk, hts, hwn, hdel]
    · intro k2 v2 hne
      exact (hpairsD k2 v2 hne).trans (hpairsT k2 v2 hne)
  · rintro ⟨i0, hi0, hk0⟩
    have hwn : wasNew = false := by
      rcases hb2 : wasNew with _ | _
      · rfl
      · exact absurd rfl (hnewIff.mp hb2 i0 hi0 name hk0)
    refine ⟨t', ?_, hwf', ?_, ?_, ?_, ?_⟩
    · simp only [runStep, hfr, hch, hinstr]
      norm_num [OpCode.code, hb, hcv, hname, hpk, hts, hwn]
    · obtain ⟨i1, hi1, he1⟩ := hHas
      have hg := tableGet_found t' name hwf' i1 hi1 (by rw [he1])
      rw [he1] at hg
      simpa using hg
    · exact fun k2 v2 hne => hpairsT k2 v2 hne
    · simp [VMState.withIp, hfr]
    · simp [VMState.withIp, hfr]

/-- Closed instance of `set_global_zombie_delete`: a one-frame machine whose
chunk is `[OP_SET_GLOBAL, 0]` over the constant string "x" (object 2), run
with empty globals: the step raises "Undefined variable 'x'." and the final
globals still report "x" undefined. -/
theorem set_global_zombie_delete_witness :
    ∃ g2,
      runStep
        { frames := [{ closureOid := 1, ip := 0, slotsBase := 0 }],
          stack := [Value.obj 1, Value.bool true],
          globals := initTable, strings := initTable, openUpvalues := none,
          objects := [
            HeapObj.func
              { arity := 0, upvalueCount := 0,
                chunk := { code := [9, 0], lines := [], constants := [Value.obj 2] },
                name := none },
            HeapObj.closure { funId := 0, upvalues := [], upvalueCount := 0 },
            HeapObj.str [120]],
          output := [] }
      = .errRuntime (.undefinedVariable [120])
          (runtimeError
            { frames := [{ closureOid := 1, ip := 0, slotsBase := 0 }],
              stack := [Value.obj 1, Value.bool true],
              globals := g2, strings := initTable, openUpvalues := none,
              objects := [
                HeapObj.func
                  { arity := 0, upvalueCount := 0,
                    chunk := { code := [9, 0], lines := [], constants := [Value.obj 2] },
                    name := none },
                HeapObj.closure { funId := 0, upvalues := [], upvalueCount := 0 },
                HeapObj.str [120]],
              output := [] })
      ∧ TableWF g2
      ∧ tableGet g2 { sid := 2, chars := [120], hash := hashString [120] } = some none := by
  obtain ⟨g2, h1, h2, h3, h4⟩ :=
    (set_global_zombie_delete
      { frames := [{ closureOid := 1, ip := 0, slotsBase := 0 }],
        stack := [Value.obj 1, Value.bool true],
        globals := initTable, strings := initTable, openUpvalues := none,
        objects := [
          HeapObj.func
            { arity := 0, upvalueCount := 0,
              chunk := { code := [9, 0], lines := [], constants := [Value.obj 2] },
              name := none },
          HeapObj.closure { funId := 0, upvalues := [], upvalueCount := 0 },
          HeapObj.str [120]],
        output := [] }
      { closureOid := 1, ip := 0, slotsBase := 0 } []
      { code := [9, 0], lines := [], constants := [Value.obj 2] } 0 (Value.obj 2)
      { sid := 2, chars := [120], hash := hashString [120] } (Value.bool true)
      rfl rfl rfl rfl rfl rfl rfl
      tableWF_initTable
      (fun i2 hi2 => absurd hi2 (Nat.not_lt_zero i2))).1
    (fun i hi => absurd hi (Nat.not_lt_zero i))
  exact ⟨g2, h1, h2, h3⟩

/-- Unfolding `tableFindStringAux` one step when the probed bucket's key is
absent. -/
theorem tableFindStringAux_step_none (entries : List Entry) (cap : Nat) (chars : List Nat)
    (h : Nat) (fuel idx : Nat)
    (hk : (entries.getD idx emptyEntry).key = none) :
    tableFindStringAux entries cap chars h (fuel + 1) idx
      = if (entries.getD idx emptyEntry).value = Value.nil then some none
        else tableFindStringAux entries cap chars h fuel ((idx + 1) % cap) := by
  rw [tableFindStringAux]
  rw [hk]

/-- Unfolding `tableFindStringAux` one step when the probed bucket holds a
key. -/
theorem tableFindStringAux_step_some (entries : List Entry) (cap : Nat) (chars : List Nat)
    (h : Nat) (fuel idx : Nat) (k : StrRef)
    (hk : (entries.getD idx emptyEntry).key = some k) :
    tableFindStringAux entries cap chars h (fuel + 1) idx
      = if k.chars.length = chars.length ∧ k.hash = h ∧ k.chars = chars then some (some k)
        else tableFindStringAux entries cap chars h fuel ((idx + 1) % cap) := by
  rw [tableFindStringAux]
  rw [hk]

/-- A hit reported by the interning probe really is a stored key with the
probed content. -/
theorem tableFindStringAux_sound (entries : List Entry) (cap : Nat) (chars : List Nat)
    (h : Nat) :
    ∀ (fuel idx : Nat) (k : StrRef), idx < cap →
      tableFindStringAux entries cap chars h fuel idx = some (some k) →
      k.chars = chars ∧ ∃ i, i < cap ∧ (entries.getD i emptyEntry).key = some k := by
  intro fuel
  induction fuel with
  | zero =>
    intro idx k _ hres
    exact absurd hres (by simp [tableFindStringAux])
  | succ fuel ih =>
    intro idx k hidx hres
    have hcap : 0 < cap := Nat.lt_of_le_of_lt (Nat.zero_le idx) hidx
    rcases hk : (entries.getD idx emptyEntry).key with _ | k0
    · rw [tableFindStringAux_step_none entries cap chars h fuel idx hk] at hres
      by_cases hv : (entries.getD idx emptyEntry).value = Value.nil
      · rw [if_pos hv] at hres
        injection hres with hres
        cases hres
      · rw [if_neg hv] at hres
        exact ih _ k (Nat.mod_lt _ hcap) hres
    · rw [tableFindStringAux_step_some entries cap chars h fuel idx k0 hk] at hres
      by_cases ht : k0.chars.length = chars.length ∧ k0.hash = h ∧ k0.chars = chars
      · rw [if_pos ht] at hres
        injection hres with hres
        injection hres with hres
        subst hres
        exact ⟨ht.2.2, idx, hidx, hk⟩
      · rw [if_neg ht] at hres
        exact ih _ k (Nat.mod_lt _ hcap) hres

/-- An exhausted interning probe visited only non-free buckets. -/
theorem tableFindStringAux_none (entries : List Entry) (cap : Nat) (chars : List Nat)
    (h : Nat) (start : Nat) :
    ∀ (fuel j0 : Nat),
      tableFindStringAux entries cap chars h fuel (probePath cap start j0) = none →
      ∀ j, j0 ≤ j → j < j0 + fuel → (probeSlot entries cap start j).isFree = false := by
  intro fuel
  induction fuel with
  | zero => intro j0 _ j h1 h2; omega
  | succ fuel ih =>
    intro j0 hres j hj1 hj2
    rcases hk : (entries.getD (probePath cap start j0) emptyEntry).key with _ | k
    · rw [tableFindStringAux_step_none entries cap chars h fuel _ hk] at hres
      by_cases hv : (entries.getD (probePath cap start j0) emptyEntry).value = Value.nil
      · rw [if_pos hv] at hres
        exact absurd hres (by simp)
      · rw [if_neg hv, probePath_succ] at hres
        rcases Nat.eq_or_lt_of_le hj1 with he | hlt
        · subst he
          exact isFree_of_tombstone _ hk hv
        · exact ih (j0 + 1) hres j hlt (by omega)
    · rw [tableFindStringAux_step_some entries cap chars h fuel _ k hk] at hres
      by_cases ht : k.chars.length = chars.length ∧ k.hash = h ∧ k.chars = chars
      · rw [if_pos ht] at hres
        exact absurd hres (by simp)
      · rw [if_neg ht, probePath_succ] at hres
        rcases Nat.eq_or_lt_of_le hj1 with he | hlt
        · subst he
          exact isFree_of_key_some _ k hk
        · exact ih (j0 + 1) hres j hlt (by omega)

/-- The interning probe, started from a stored key's hash bucket, finds that
key when its content matches and content determines the bucket. -/
theorem tableFindStringAux_complete (entries : List Entry) (cap : Nat) (chars : List Nat)
    (h : Nat) (start i j : Nat) (k0 : StrRef) (hcap : 0 < cap)
    (hj : probePath cap start j = i)
    (hkey : (entries.getD i emptyEntry).key = some k0)
    (hchars : k0.chars = chars) (hhash : k0.hash = h)
    (hpre : ∀ j', j' < j → (probeSlot entries cap start j').isFree = false)
    (huniqC : ∀ i2, i2 < cap → ∀ k2, (entries.getD i2 emptyEntry).key = some k2 →
        k2.chars = chars → i2 = i) :
    ∀ (fuel j0 : Nat), j0 ≤ j → j < j0 + fuel →
      tableFindStringAux entries cap chars h fuel (probePath cap start j0)
        = some (some k0) := by
  intro fuel
  induction fuel with
  | zero => intro j0 h1 h2; omega
  | succ fuel ih =>
    intro j0 hj0 hlt
    rcases hk : (entries.getD (probePath cap start j0) emptyEntry).key with _ | k
    · rcases Nat.eq_or_lt_of_le hj0 with he | hstep
      · subst he
        rw [hj, hkey] at hk
        cases hk
      · rw [tableFindStringAux_step_none entries cap chars h fuel _ hk]
        have hnf := hpre j0 hstep
        by_cases hv : (entries.getD (probePath cap start j0) emptyEntry).value = Value.nil
        · exfalso
          have hfr : (probeSlot entries cap start j0).isFree = true := isFree_of_free _ hk hv
          rw [hfr] at hnf
          exact absurd hnf (by simp)
        · rw [if_neg hv, probePath_succ]
          exact ih (j0 + 1) hstep (by omega)
    · rw [tableFindStringAux_step_some entries cap chars h fuel _ k hk]
      by_cases ht : k.chars.length = chars.length ∧ k.hash = h ∧ k.chars = chars
      · rw [if_pos ht]
        have hieq := huniqC (probePath cap start j0) (probePath_lt cap start j0 hcap) k hk
          ht.2.2
        rw [hieq] at hk
        rw [hkey] at hk
        injection hk with hk
        rw [hk]
      · rcases Nat.eq_or_lt_of_le hj0 with he | hstep
        · exfalso
          subst he
          rw [hj, hkey] at hk
          injection hk with hk
          subst hk
          exact ht ⟨by rw [hchars], hhash, hchars⟩
        · rw [if_neg ht, probePath_succ]
          exact ih (j0 + 1) hstep (by omega)

/-- `tableFindString` terminates on every well-formed table. -/
theorem tableFindString_isSome (t : Table) (chars : List Nat) (h : Nat) (hwf : TableWF t) :
    ∃ r, tableFindString t chars h = some r := by
  by_cases hcnt : t.count = 0
  · exact ⟨none, by simp [tableFindString, hcnt]⟩
  · have hcap := capacity_pos_of_count_ne t hwf hcnt
    rcases hres : tableFindStringAux t.entries t.capacity chars h t.capacity
        (h % t.capacity) with _ | r
    · exfalso
      obtain ⟨m, hm, hfr⟩ := exists_free_slot t hwf hcap
      obtain ⟨jm, hjm, hpm⟩ := exists_probe_offset t.capacity (h % t.capacity) m hm
      have h0 : tableFindStringAux t.entries t.capacity chars h t.capacity
          (probePath t.capacity (h % t.capacity) 0) = none := by
        rw [probePath_zero _ _ (Nat.mod_lt _ hcap)]
        exact hres
      have hnf := tableFindStringAux_none t.entries t.capacity chars h (h % t.capacity)
        t.capacity 0 h0 jm (Nat.zero_le jm) (by omega)
      unfold probeSlot at hnf
      rw [hpm] at hnf
      rw [hfr] at hnf
      cases hnf
    · exact ⟨r, by simp [tableFindString, hcnt, hres]⟩

/-- `tableFindString`, queried with a stored key's content and its FNV-1a
hash, reports that key. -/
theorem tableFindString_found (t : Table) (chars : List Nat) (k0 : StrRef) (i : Nat)
    (hwf : TableWF t)
    (hhashOk : ∀ i2, i2 < t.capacity → ∀ k, (t.entries.getD i2 emptyEntry).key = some k →
        k.hash = hashString k.chars)
    (huniqC : ∀ i1, i1 < t.capacity → ∀ i2, i2 < t.capacity → ∀ k1 k2,
        (t.entries.getD i1 emptyEntry).key = some k1 →
        (t.entries.getD i2 emptyEntry).key = some k2 → i1 ≠ i2 → k1.chars ≠ k2.chars)
    (hi : i < t.capacity)
    (hkey : (t.entries.getD i emptyEntry).key = some k0)
    (hchars : k0.chars = chars) :
    tableFindString t chars (hashString chars) = some (some k0) := by
  have hcnt := count_pos_of_keyed t hwf i hi k0 hkey
  have hcap : 0 < t.capacity := Nat.lt_of_le_of_lt (Nat.zero_le i) hi
  obtain ⟨j, hjcap, hpath, hpre⟩ := hwf.probeOk i hi k0 hkey
  have hh : k0.hash = hashString chars := by
    rw [hhashOk i hi k0 hkey, hchars]
  have huniq2 : ∀ i2, i2 < t.capacity → ∀ k2,
      (t.entries.getD i2 emptyEntry).key = some k2 → k2.chars = chars → i2 = i := by
    intro i2 hi2 k2 hk2 hc2
    by_contra hne
    exact huniqC i2 hi2 i hi k2 k0 hk2 hkey hne (by rw [hc2, hchars])
  have hstart : hashString chars % t.capacity = k0.hash % t.capacity := by rw [hh]
  unfold tableFindString
  rw [if_neg hcnt]
  rw [hstart]
  have hres := tableFindStringAux_complete t.entries t.capacity chars (hashString chars)
    (k0.hash % t.capacity) i j k0 hcap hpath.symm hkey hchars hh hpre huniq2
    t.capacity 0 (Nat.zero_le j) (by omega)
  rw [probePath_zero _ _ (Nat.mod_lt _ hcap)] at hres
  exact hres

/-- A miss reported by `tableFindString` means no stored key has the probed
content. -/
theorem tableFindString_miss (t : Table) (chars : List Nat) (hwf : TableWF t)
    (hhashOk : ∀ i2, i2 < t.capacity → ∀ k, (t.entries.getD i2 emptyEntry).key = some k →
        k.hash = hashString k.chars)
    (huniqC : ∀ i1, i1 < t.capacity → ∀ i2, i2 < t.capacity → ∀ k1 k2,
        (t.entries.getD i1 emptyEntry).key = some k1 →
        (t.entries.getD i2 emptyEntry).key = some k2 → i1 ≠ i2 → k1.chars ≠ k2.chars)
    (hmiss : tableFindString t chars (hashString chars) = some none) :
    ∀ i, i < t.capacity → ∀ k, (t.entries.getD i emptyEntry).key = some k →
      k.chars ≠ chars := by
  intro i hi k hk hc
  have hfound := tableFindString_found t chars k i hwf hhashOk huniqC hi hk hc
  rw [hmiss] at hfound
  injection hfound with hfound
  cases hfound

/-- `copyString` on a well-formed interning state succeeds and canonicalizes:
the returned handle carries the requested bytes, is stored in the interning
table, collides on object id with no previously stored key unless it *is*
that key, and interning the same bytes again returns the very same handle and
state. -/
theorem copyString_spec (st : InternState) (chars : List Nat) (hwf : InternWF st) :
    ∃ st1 k1, copyString st chars = some (st1, k1)
      ∧ InternWF st1
      ∧ k1.chars = chars
      ∧ (∃ i, i < st1.strings.capacity
          ∧ (st1.strings.entries.getD i emptyEntry).key = some k1)
      ∧ (∀ i, i < st.strings.capacity → ∀ k0,
          (st.strings.entries.getD i emptyEntry).key = some k0 →
          k1.sid = k0.sid → k1 = k0)
      ∧ copyString st1 chars = some (st1, k1) := by
  obtain ⟨r, hfind⟩ := tableFindString_isSome st.strings chars (hashString chars) hwf.wf
  rcases r with _ | k
  · -- miss: allocate and intern a fresh handle
    have habs := tableFindString_miss st.strings chars hwf.wf hwf.hashOk hwf.contentUnique
      hfind
    have huniqRef : ∀ i2, i2 < st.strings.capacity → ∀ k2,
        (st.strings.entries.getD i2 emptyEntry).key = some k2 →
        k2.sid = ({ sid := st.objects.length, chars := chars,
                    hash := hashString chars } : StrRef).sid →
        k2 = { sid := st.objects.length, chars := chars, hash := hashString chars } := by
      intro i2 hi2 k2 hk2 hs
      have hlt := hwf.sidsBound i2 hi2 k2 hk2
      have h' : k2.sid = st.objects.length := hs
      exact absurd h' (by omega)
    obtain ⟨t', wasNew, hts, hwf', hHas, hpairsT, hnewIff, hsubT⟩ :=
      tableSet_spec_wf st.strings
        { sid := st.objects.length, chars := chars, hash := hashString chars } .nil
        hwf.wf huniqRef
    obtain ⟨iR, hiR, heR⟩ := hHas
    have hkR : (t'.entries.getD iR emptyEntry).key
        = some { sid := st.objects.length, chars := chars, hash := hashString chars } := by
      rw [heR]
    have hwf1 : InternWF { strings := t', objects := st.objects ++ [.str chars] } := by
      constructor
      · exact hwf'
      · intro i hi k hk
        rcases hsubT i hi k hk with h | ⟨i0, hi0, he0⟩
        · rw [h]
        · exact hwf.hashOk i0 hi0 k (by rw [he0]; exact hk)
      · intro i1 hi1 i2 hi2 k1 k2 hk1 hk2 hne
        rcases hsubT i1 hi1 k1 hk1 with h1 | ⟨ia, hia, hea⟩ <;>
          rcases hsubT i2 hi2 k2 hk2 with h2 | ⟨ib, hib, heb⟩
        · exact absurd (show k1.sid = k2.sid by rw [h1, h2])
            (hwf'.sidsDistinct i1 hi1 i2 hi2 k1 k2 hk1 hk2 hne)
        · intro heq
          exact habs ib hib k2 (by rw [heb]; exact hk2) (by rw [← heq, h1])
        · intro heq
          exact habs ia hia k1 (by rw [hea]; exact hk1) (by rw [heq, h2])
        · by_cases hiab : ia = ib
          · subst hiab
            have hk1a : (st.strings.entries.getD ia emptyEntry).key = some k1 := by
              rw [hea]; exact hk1
            have hk2a : (st.strings.entries.getD ia emptyEntry).key = some k2 := by
              rw [heb]; exact hk2
            rw [hk1a] at hk2a
            injection hk2a with hk2a
            exact absurd (show k1.sid = k2.sid by rw [hk2a])
              (hwf'.sidsDistinct i1 hi1 i2 hi2 k1 k2 hk1 hk2 hne)
          · exact hwf.contentUnique ia hia ib hib k1 k2 (by rw [hea]; exact hk1)
              (by rw [heb]; exact hk2) hiab
      · intro i hi k hk
        show k.sid < (st.objects ++ [HeapObj.str chars]).length
        rw [List.length_append]
        rcases hsubT i hi k hk with h | ⟨i0, hi0, he0⟩
        · rw [h]
          simp
        · have := hwf.sidsBound i0 hi0 k (by rw [he0]; exact hk)
          simp
          omega
    have hfound2 := tableFindString_found t' chars
      { sid := st.objects.length, chars := chars, hash := hashString chars } iR
      hwf' hwf1.hashOk hwf1.contentUnique hiR hkR rfl
    refine ⟨{ strings := t', objects := st.objects ++ [.str chars] },
      { sid := st.objects.length, chars := chars, hash := hashString chars },
      ?_, hwf1, rfl, ⟨iR, hiR, hkR⟩, ?_, ?_⟩
    · simp [copyString, hfind, hts]
    · intro i hi k0 hk0 hsid
      have hlt := hwf.sidsBound i hi k0 hk0
      have h' : st.objects.length = k0.sid := hsid
      exact absurd h' (by omega)
    · simp [copyString, hfound2]
  · -- hit: return the stored handle unchanged
    have hsound : k.chars = chars
        ∧ ∃ i, i < st.strings.capacity
          ∧ (st.strings.entries.getD i emptyEntry).key = some k := by
      by_cases hcnt : st.strings.count = 0
      · rw [tableFindString, if_pos hcnt] at hfind
        injection hfind with hfind
        cases hfind
      · have hcap := capacity_pos_of_count_ne st.strings hwf.wf hcnt
        rw [tableFindString, if_neg hcnt] at hfind
        exact tableFindStringAux_sound st.strings.entries st.strings.capacity chars
          (hashString chars) st.strings.capacity (hashString chars % st.strings.capacity) k
          (Nat.mod_lt _ hcap) hfind
    obtain ⟨hchars, is, his, hkis⟩ := hsound
    refine ⟨st, k, ?_, hwf, hchars, ⟨is, his, hkis⟩, ?_, ?_⟩
    · simp [copyString, hfind]
    · intro i2 hi2 k0 hk0 hsid
      by_cases hii : is = i2
      · subst hii
        rw [hkis] at hk0
        injection hk0 with hk0
      · exact absurd hsid (hwf.wf.sidsDistinct is his i2 hi2 k k0 hkis hk0 hii)
    · simp [copyString, hfind]

theorem internWF_empty : InternWF { strings := initTable, objects := [] } := by
  constructor
  · exact tableWF_initTable
  · intro i hi
    exact absurd hi (Nat.not_lt_zero i)
  · intro i1 hi1
    exact absurd hi1 (Nat.not_lt_zero i1)
  · intro i hi
    exact absurd hi (Nat.not_lt_zero i)

/-- C5: string interning is canonical: interning byte sequences `s` and `t2`
in turn (via `copyString`; `takeString` performs the very same lookup) yields
handles that are identical — as records and as object ids — exactly when the
bytes are equal, and `valuesEqual` on the two resulting string `Value`s
returns true exactly when the bytes are equal. -/
theorem intern_identity (st : InternState) (s t2 : List Nat) (hwf : InternWF st) :
    ∃ st1 k1 st2 k2,
      copyString st s = some (st1, k1)
      ∧ copyString st1 t2 = some (st2, k2)
      ∧ takeString st s = copyString st s
      ∧ k1.chars = s ∧ k2.chars = t2
      ∧ ((k1 = k2) ↔ s = t2)
      ∧ ((k1.sid = k2.sid) ↔ s = t2)
      ∧ (valuesEqual (Value.obj k1.sid) (Value.obj k2.sid) = true ↔ s = t2) := by
  obtain ⟨st1, k1, hc1, hwf1, hchars1, hstored1, hsidU1, hagain1⟩ := copyString_spec st s hwf
  obtain ⟨st2, k2, hc2, hwf2, hchars2, hstored2, hsidU2, hagain2⟩ :=
    copyString_spec st1 t2 hwf1
  have hof : s = t2 → k1 = k2 := by
    intro hst
    subst hst
    rw [hagain1] at hc2
    injection hc2 with hc2
    exact congrArg Prod.snd hc2
  have hsidIff : k1.sid = k2.sid ↔ s = t2 := by
    constructor
    · intro hs
      obtain ⟨i, hi, hki⟩ := hstored1
      have hk21 := hsidU2 i hi k1 hki hs.symm
      rw [← hchars1, ← hchars2, hk21]
    · intro h
      rw [hof h]
  refine ⟨st1, k1, st2, k2, hc1, hc2, rfl, hchars1, hchars2,
    ⟨fun h => by rw [← hchars1, ← hchars2, h], hof⟩, hsidIff, ?_⟩
  have hv : valuesEqual (Value.obj k1.sid) (Value.obj k2.sid) = (k1.sid == k2.sid) := rfl
  rw [hv, beq_iff_eq]
  exact hsidIff

/-- Closed instance of `intern_identity`: interning "hi" (bytes 104 105) and
then "h" (byte 104) starting from the empty interning state yields handles
that differ in every sense, with each handle carrying its own bytes. -/
theorem intern_identity_witness :
    ∃ st1 k1 st2 k2,
      copyString { strings := initTable, objects := [] } [104, 105] = some (st1, k1)
      ∧ copyString st1 [104] = some (st2, k2)
      ∧ takeString { strings := initTable, objects := [] } [104, 105]
          = copyString { strings := initTable, objects := [] } [104, 105]
      ∧ k1.chars = [104, 105] ∧ k2.chars = [104]
      ∧ ((k1 = k2) ↔ ([104, 105] : List Nat) = [104])
      ∧ ((k1.sid = k2.sid) ↔ ([104, 105] : List Nat) = [104])
      ∧ (valuesEqual (Value.obj k1.sid) (Value.obj k2.sid) = true
          ↔ ([104, 105] : List Nat) = [104]) :=
  intern_identity { strings := initTable, objects := [] } [104, 105] [104] internWF_empty

end Clox
